import Mathlib

/-!
# Verification of the recurring-date resolution core of WoWBack

Shallow embedding of `event-analyzer/server/services/eventVision.js`
(`DAY_NAME_TO_INDEX`, `calculateRecurringDates`, and the
`recurring_dates` computation inside `analyzeEventImage`) together with
the expiration resolver documented in the repository changelog.

JavaScript strings are modelled as Lean `String`; JS string comparison
(`<`, the default `Array#sort` comparator, `localeCompare` on ISO date
strings) is modelled by an executable code-point lexicographic
comparison `strLtB`/`strLeB` defined below.  JS numbers appearing in
this core are integers or `NaN`; they are modelled as `Option Int` with
`none` playing the role of `NaN`.  Fallible JS code (a `TypeError`, or
a non-terminating `while` loop) is modelled by the `JsResult` type.
The refinement of the numeric state to IEEE-754 binary64 values (exact
below `2^53`, rounded above, overflowing to `Infinity`) is developed
alongside, for the claims that are sensitive to it.
-/

set_option maxRecDepth 10000

/-! ## JS string primitives -/

/-- The whitespace set used by JS `String#trim` (ASCII part plus NBSP;
the exotic Unicode space characters do not occur in this development). -/
def isJsWhitespace (c : Char) : Bool :=
  (9 ≤ c.toNat && c.toNat ≤ 13) || c.toNat = 32 || c.toNat = 160

/-- JS `String#trim`: drop whitespace from both ends. -/
def jsTrim (s : String) : String :=
  ⟨((s.data.dropWhile isJsWhitespace).reverse.dropWhile isJsWhitespace).reverse⟩

/-- JS `String#toLowerCase` restricted to the character repertoire of this
program: ASCII letters and the Latin-1 accented capitals (covering
`É`, `Á`, ... so that accented Spanish day names lower-case correctly). -/
def jsToLowerChar (c : Char) : Char :=
  if 65 ≤ c.toNat && c.toNat ≤ 90 then Char.ofNat (c.toNat + 32)
  else if 192 ≤ c.toNat && c.toNat ≤ 222 && c.toNat ≠ 215 then Char.ofNat (c.toNat + 32)
  else c

/-- JS `String#toLowerCase` (see `jsToLowerChar`). -/
def jsToLowerCase (s : String) : String :=
  ⟨s.data.map jsToLowerChar⟩

/-- `String#split('-')` on the underlying character list. -/
def splitDash : List Char → List (List Char)
  | [] => [[]]
  | c :: cs =>
    let r := splitDash cs
    if c = '-' then [] :: r
    else
      match r with
      | [] => [[c]]
      | h :: t => (c :: h) :: t

/-- JS `str.split('-')`. -/
def jsSplitDash (s : String) : List String :=
  (splitDash s.data).map (fun l => ⟨l⟩)

/-- Fold a list of decimal digit characters into the number they denote. -/
def parseDigits (l : List Char) : Nat :=
  l.foldl (fun a c => a * 10 + (c.toNat - 48)) 0

/-- JS `Number(str)` restricted to the string shapes this program feeds it:
the empty (or all-whitespace) string is `0`, a string of decimal digits is
that number, everything else is `NaN` (`none`).  Fractional, signed,
hexadecimal and exponent forms are not modelled; no input in this
development takes those shapes (`split('-')` pieces never contain `-`).
This is the *exact* parse; JS rounds it to a binary64 double, which agrees
with it up to `2^53` — `jsStrToNumD` below models the rounding, and the
claims that are sensitive to it are stated over that refinement. -/
def jsStrToNum (s : String) : Option Int :=
  let t := (jsTrim s).data
  if t = [] then some 0
  else if t.all (fun c => c.isDigit) then some (Int.ofNat (parseDigits t))
  else none

/-- Code-point comparison of characters, as JS compares UTF-16 units
(identical on the basic multilingual plane used here). -/
def charLtB (a b : Char) : Bool := a.toNat < b.toNat

/-- Lexicographic order on character lists. -/
def lexLtB : List Char → List Char → Bool
  | [], [] => false
  | [], _ :: _ => true
  | _ :: _, [] => false
  | a :: as, b :: bs =>
    if charLtB a b then true
    else if charLtB b a then false
    else lexLtB as bs

/-- JS `s < t` on strings (also the order induced by the default
`Array#sort` comparator and by `localeCompare` on ASCII date strings). -/
def strLtB (s t : String) : Bool := lexLtB s.data t.data

/-- JS `s <= t` on strings. -/
def strLeB (s t : String) : Bool := !(strLtB t s)

/-- The sort relation used to model `Array#sort()` on strings. -/
def jsLeRel (s t : String) : Prop := strLeB s t = true

instance : DecidableRel jsLeRel := fun _ _ => decEq _ _

/-- `Array#sort()` with the default (lexicographic) comparator; also
`sort((a, b) => a.localeCompare(b))` on ISO date strings.  A comparator-
consistent JS sort returns the unique sorted rearrangement up to equal
elements, which `insertionSort` produces. -/
def jsSortStrings (l : List String) : List String :=
  l.insertionSort jsLeRel

/-- JS `String(n).padStart(2, '0')`. -/
def padStart2 (s : String) : String :=
  ⟨List.replicate (2 - s.length) '0'⟩ ++ s

/-! ## JS values, errors and outcomes -/

/-- The slice of JS values that can reach the weekday fields of the
untrusted classifier output. -/
inductive JsVal where
  | undef
  | null
  | bool (b : Bool)
  | num (n : Int)
  | nan
  | str (s : String)
  | arr (elems : List JsVal)

/-- JS truthiness. -/
def JsVal.truthy : JsVal → Bool
  | .undef => false
  | .null => false
  | .bool b => b
  | .num n => n ≠ 0
  | .nan => false
  | .str s => s ≠ ""
  | .arr _ => true

/-- A thrown JS exception. -/
inductive JsError where
  | typeError (msg : String)
deriving DecidableEq, Repr

/-- Outcome of running a piece of JS code: a value, a thrown exception,
or non-termination of a `while` loop. -/
inductive JsResult (α : Type) where
  | ok (a : α)
  | thrown (e : JsError)
  | diverges
deriving DecidableEq, Repr

/-! ## The analysis record (untrusted classifier output) -/

/-- The fields of the vision-model analysis object that the recurring-date
code reads.  `recurring_specific_days`: `none` models a non-array value
(the code tests `Array.isArray` before using it); day numbers are JS
integers.  Month fields and `date`: `none` models `undefined`/`null`.
The two weekday fields are arbitrary JS values (the code coerces them and
can throw). -/
structure Analysis where
  is_recurring : Bool
  recurring_days_of_week : JsVal := .undef
  recurring_day_of_week : JsVal := .undef
  recurring_specific_days : Option (List Int) := none
  recurring_month_start : Option String := none
  recurring_month_end : Option String := none
  date : Option String := none

/-! ## Weekday-name vocabulary (`DAY_NAME_TO_INDEX`) -/

/-- The fixed Spanish weekday-name table, Sunday-indexed 0-6, with
accent-free aliases for miércoles and sábado. -/
def DAY_NAME_TO_INDEX : List (String × Nat) :=
  [("domingo", 0), ("lunes", 1), ("martes", 2), ("miércoles", 3), ("miercoles", 3),
   ("jueves", 4), ("viernes", 5), ("sábado", 6), ("sabado", 6)]

/-- `DAY_NAME_TO_INDEX[d]`, `undefined` becoming `none`. -/
def dayNameToIndex (s : String) : Option Nat :=
  (DAY_NAME_TO_INDEX.find? (fun p => p.1 = s)).map (fun p => p.2)

/-- `d.toLowerCase().trim()` applied to one raw weekday entry: throws a
`TypeError` unless the value is a string. -/
def coerceDayName : JsVal → Except JsError String
  | .str s => .ok (jsTrim (jsToLowerCase s))
  | _ => .error (.typeError "toLowerCase is not a function")

/-- `analysis.recurring_days_of_week || analysis.recurring_day_of_week`. -/
def rawDaysOf (a : Analysis) : JsVal :=
  if a.recurring_days_of_week.truthy then a.recurring_days_of_week
  else a.recurring_day_of_week

/-- Lines 56-58: coerce the raw weekday field to a list of lower-cased,
trimmed names (array mapped; truthy non-array wrapped; falsy empty). -/
def dayNamesOf (a : Analysis) : Except JsError (List String) :=
  match rawDaysOf a with
  | .arr vs => vs.mapM coerceDayName
  | v => if v.truthy then (coerceDayName v).map (fun s => [s]) else .ok []

/-- Line 59: `dayNames.map(d => DAY_NAME_TO_INDEX[d]).filter(i => i !== undefined)`. -/
def dayIndicesOf (names : List String) : List Nat :=
  names.filterMap dayNameToIndex

/-! ## Proleptic Gregorian calendar (the arithmetic behind JS `Date`) -/

/-- Gregorian leap-year rule (what JS `Date` implements). -/
def isLeapYear (y : Int) : Bool :=
  y % 4 = 0 && (y % 100 ≠ 0 || y % 400 = 0)

/-- Days in month `m` (1-12) of year `y`; the value `new Date(y, m, 0).getDate()`
returns for `m` already normalized to 1-12. -/
def daysInMonth (y : Int) (m : Nat) : Nat :=
  if m = 2 then (if isLeapYear y then 29 else 28)
  else if m = 4 ∨ m = 6 ∨ m = 9 ∨ m = 11 then 30
  else 31

/-- JS `Date` month normalization: `new Date(y, m, _)` lands in year
`y + m.fdiv 12` and 0-indexed month `m.fmod 12` (floor division, which for
the positive divisor 12 is Euclidean division). -/
def normYM (y m : Int) : Int × Nat :=
  (y + m / 12, (m % 12).toNat)

/-- Days between the given proleptic Gregorian date (month 1-12) and
1970-01-01 (Howard Hinnant's `days_from_civil`, valid for every year). -/
def daysFromCivil (y : Int) (m : Nat) (d : Nat) : Int :=
  let y' : Int := if m ≤ 2 then y - 1 else y
  let era : Int := (if 0 ≤ y' then y' else y' - 399) / 400
  let yoe : Int := y' - era * 400
  let doy : Int := (153 * (if m > 2 then (m : Int) - 3 else (m : Int) + 9) + 2) / 5 + d - 1
  let doe : Int := yoe * 365 + yoe / 4 - yoe / 100 + doy
  era * 146097 + doe - 719468

/-- JS `new Date(y, m0, d).getDay()` for a 0-indexed month `m0` with the
day already known to fall inside the normalized month: weekday with
0 = Sunday. -/
def jsGetDay (y : Int) (m : Nat) (d : Nat) : Nat :=
  ((daysFromCivil y m d + 4) % 7).toNat

/-- The template string `` `${yyyy}-${mm}-${dd}` `` with `mm` and `dd`
run through `padStart(2, '0')`. -/
def fmtDate (y m d : Int) : String :=
  toString y ++ "-" ++ padStart2 (toString m) ++ "-" ++ padStart2 (toString d)

/-! ## Month-range parsing with defaulting (lines 26-49) -/

/-- The four loop-bound variables; `none` is `NaN`. -/
structure MonthRange where
  startYear : Option Int
  startMonth : Option Int
  endYear : Option Int
  endMonth : Option Int
deriving DecidableEq, Repr

/-- Parse one `"YYYY-MM"` field into `(year, month-1)` exactly as
`split('-').map(Number)` followed by `sm - 1` does: a missing second
component is `undefined`, and `undefined - 1` is `NaN`. -/
def parseMonthField (s : String) : Option Int × Option Int :=
  let parts := jsSplitDash s
  (jsStrToNum (parts.headD ""),
   (parts.get? 1).bind (fun p => (jsStrToNum p).map (fun n => n - 1)))

/-- Lines 26-49: parse the month range, defaulting a falsy start to the
current (clock) year/0-indexed month and a falsy end to the start. -/
def parseMonthRange (nowYear nowMonth : Int) (ms me : Option String) : MonthRange :=
  let st : Option Int × Option Int :=
    match ms with
    | some s => if s ≠ "" then parseMonthField s else (some nowYear, some nowMonth)
    | none => (some nowYear, some nowMonth)
  let en : Option Int × Option Int :=
    match me with
    | some s => if s ≠ "" then parseMonthField s else st
    | none => st
  ⟨st.1, st.2, en.1, en.2⟩

/-! ## The month-by-month `while` loop (lines 65-79 and 90-101) -/

/-- JS `<` where either side may be `NaN` (`none`): any comparison with
`NaN` is false. -/
def optLtB : Option Int → Option Int → Bool
  | some a, some b => a < b
  | _, _ => false

/-- JS `===` on numbers where either side may be `NaN`. -/
def optEqB : Option Int → Option Int → Bool
  | some a, some b => a = b
  | _, _ => false

/-- JS `<=` where either side may be `NaN`. -/
def optLeB : Option Int → Option Int → Bool
  | some a, some b => a ≤ b
  | _, _ => false

/-- The loop guard `year < endYear || (year === endYear && month <= endMonth)`
for an integer-valued current year/month. -/
def monthGuard (y m : Int) (ey em : Option Int) : Bool :=
  optLtB (some y) ey || (optEqB (some y) ey && optLeB (some m) em)

/-- Fuel-indexed rendering of the `while` loop: run `body` on the current
`(year, month)` pair, then advance `month++`, wrapping `month > 11` to
January of the next year.  (Month values outside 0-11 can only occur on the
first iteration, fed by a parsed month string; JS `Date` normalizes them
inside the body.)  The fuel only makes the recursion structural; it is
instantiated below with a provably sufficient amount, so it never runs out
while the guard holds. -/
def monthLoopFuel (body : Int → Int → List String) :
    Nat → Int → Int → Option Int → Option Int → List String
  | 0, _, _, _, _ => []
  | fuel + 1, y, m, ey, em =>
    if monthGuard y m ey em then
      body y m ++
        (if m + 1 > 11 then monthLoopFuel body fuel (y + 1) 0 ey em
         else monthLoopFuel body fuel y (m + 1) ey em)
    else []

/-- An upper bound on the remaining iterations: strictly decreases at every
step of the loop while the guard holds, and is positive whenever the guard
holds. -/
def loopMeasure (y m : Int) (ey : Option Int) : Nat :=
  match ey with
  | some e => 20 * (e + 1 - y).toNat + (if m ≤ 11 then (12 - m).toNat else 0)
  | none => 0

/-- The `while` loop (lines 65-79 / 90-101) with integer loop variables.
`year++` here is the exact successor, which coincides with the double
increment JS performs as long as the year stays below `2^53`; the claims
evaluated on this loop all live in that regime.  `monthLoopDFuel` below
refines the loop with rounded double arithmetic (where the increment
stalls at `2^53`). -/
def monthLoopInt (body : Int → Int → List String) (y m : Int) (ey em : Option Int) :
    List String :=
  monthLoopFuel body (loopMeasure y m ey + 1) y m ey em

/-- The `while` loop including the `NaN` starting cases: a `NaN` start year
falsifies the guard at once; a `NaN` start month leaves the loop state
unchanged forever, so the loop diverges exactly when the year guard holds. -/
def monthLoopJs (body : Int → Int → List String) (r : MonthRange) : JsResult (List String) :=
  match r.startYear, r.startMonth with
  | some y, some m => .ok (monthLoopInt body y m r.endYear r.endMonth)
  | none, _ => .ok []
  | some y, none => if optLtB (some y) r.endYear then .diverges else .ok []

/-! ## The two loop bodies -/

/-- Lines 66-75: one month of the weekday-based expansion.  `new Date`
normalizes the raw `(year, month)` pair; every day of the normalized month
whose weekday is in `dayIndices` is formatted from the `Date` components
(so year/month/day in the output are the normalized ones). -/
def weekdayMonthBody (dayIndices : List Nat) (y m : Int) : List String :=
  let yn := (normYM y m).1
  let mn := (normYM y m).2
  let dim := daysInMonth yn (mn + 1)
  (List.range dim).filterMap (fun i =>
    if dayIndices.contains (jsGetDay yn (mn + 1) (i + 1))
    then some (fmtDate yn ((mn : Int) + 1) ((i : Int) + 1)) else none)

/-- Lines 91-98: one month of the specific-day expansion.  The month length
comes from the normalized month, but the emitted string uses the *raw*
`year` and `month + 1` values. -/
def specificMonthBody (specificDays : List Int) (y m : Int) : List String :=
  let yn := (normYM y m).1
  let mn := (normYM y m).2
  let dim := daysInMonth yn (mn + 1)
  specificDays.filterMap (fun day =>
    if 1 ≤ day ∧ day ≤ (dim : Int) then some (fmtDate y (m + 1) day) else none)

/-! ## `calculateRecurringDates` (lines 23-106) -/

/-- Lines 61-82: the weekday-based pass, followed by `dates.sort()`
(the sort runs only inside the `dayIndices.length > 0` branch; with no
recognized weekday the dates array is left empty). -/
def weekdayPhase (r : MonthRange) (dayIndices : List Nat) : JsResult (List String) :=
  if dayIndices.length > 0 then
    match monthLoopJs (weekdayMonthBody dayIndices) r with
    | .ok ds => .ok (jsSortStrings ds)
    | x => x
  else .ok []

/-- Lines 84-102: the specific-day pass, guarded by
`Array.isArray(specificDays) && specificDays.length > 0 && dates.length === 0`;
it pushes into the same `dates` array (which is empty when the guard holds). -/
def specificPhase (r : MonthRange) (specificDays : Option (List Int))
    (dates : List String) : JsResult (List String) :=
  match specificDays with
  | some sd =>
    if sd.length > 0 ∧ dates.length = 0 then
      match monthLoopJs (specificMonthBody sd) r with
      | .ok ds => .ok (dates ++ ds)
      | x => x
    else .ok dates
  | none => .ok dates

/-- `calculateRecurringDates(analysis)`; the clock read `new Date()` is
passed in as the current year and 0-indexed current month. -/
def calculateRecurringDates (nowYear nowMonth : Int) (a : Analysis) :
    JsResult (List String) :=
  if !a.is_recurring then .ok []
  else
    let r := parseMonthRange nowYear nowMonth a.recurring_month_start a.recurring_month_end
    match dayNamesOf a with
    | .error e => .thrown e
    | .ok dayNames =>
      match weekdayPhase r (dayIndicesOf dayNames) with
      | .ok dates => specificPhase r a.recurring_specific_days dates
      | x => x

/-! ## The `recurring_dates` assignment in `analyzeEventImage` (lines 372-390) -/

/-- JS string interpolation of a number that may be `NaN`. -/
def jsShowNum : Option Int → String
  | some i => toString i
  | none => "NaN"

/-- JS string interpolation of `String(x)` where `x` may be `undefined`
(outer `none`) or `NaN` (inner `none`). -/
def jsShowMaybeNum : Option (Option Int) → String
  | some v => jsShowNum v
  | none => "undefined"

/-- Lines 372-390: recurring events delegate to `calculateRecurringDates`;
a non-recurring analysis with more than one specific day is anchored to the
month/year parsed from the primary date (when that date is truthy and not
the sentinel `'No especificado'`) and each day number is formatted with no
days-in-month check; otherwise the expanded set is empty. -/
def computeRecurringDates (nowYear nowMonth : Int) (a : Analysis) :
    JsResult (List String) :=
  if a.is_recurring then calculateRecurringDates nowYear nowMonth a
  else
    match a.recurring_specific_days with
    | some sd =>
      if sd.length > 1 then
        match (match a.date with
               | some s => if s ≠ "" ∧ s ≠ "No especificado" then some s else none
               | none => none) with
        | some baseDate =>
          let parts := jsSplitDash baseDate
          let y := jsStrToNum (parts.headD "")
          let m := (parts.get? 1).map jsStrToNum
          .ok (jsSortStrings (sd.map (fun day =>
            jsShowNum y ++ "-" ++ padStart2 (jsShowMaybeNum m) ++ "-" ++
              padStart2 (toString day))))
        | none => .ok []
      else .ok []
    | none => .ok []

/-! ## The expiration resolver -/

/-- The event fields the expiration rule reads.  `recurring_dates = none`
models a missing (`null`/`undefined`) column, which the optional-chained
length test treats like an empty list. -/
structure EventRecord where
  date : Option String
  is_recurring : Bool
  recurring_dates : Option (List String)

/-- Modelled from the spec: the Expiration Resolver `effectiveExpiration`
(§4.3).  The included `routes/events.js` snapshot filters listings on the
primary date alone; the resolver itself appears in the repository only as
the `getEffectiveExpirationDate` code block recorded in the changelog
(v1.0.14), which this definition follows verbatim: falsy `date` gives
`null`; a non-recurring event or an empty/missing `recurring_dates` gives
`date`; otherwise the primary date and the recurring dates are filtered
for truthiness, sorted with `localeCompare`, and the last entry is
returned (falling back to `date` if that entry were falsy). -/
def getEffectiveExpirationDate (e : EventRecord) : Option String :=
  match e.date with
  | none => none
  | some d =>
    if d = "" then none
    else if !e.is_recurring || (e.recurring_dates.getD []).length = 0 then some d
    else
      let allDates := (d :: e.recurring_dates.getD []).filter (fun x => x ≠ "")
      let sorted := jsSortStrings allDates
      match sorted.getLast? with
      | some last => some (if last = "" then d else last)
      | none => some d

/-! ## Input-shape predicates used by the error-handling claims -/

/-- Floor of the base-2 logarithm, with explicit fuel so the recursion is
structural; `natLog2 n` passes `n` itself as fuel, which always suffices. -/
def log2Fuel : Nat → Nat → Nat
  | 0, _ => 0
  | f + 1, n => if 2 ≤ n then log2Fuel f (n / 2) + 1 else 0

/-- Floor of the base-2 logarithm of a natural number. -/
def natLog2 (n : Nat) : Nat := log2Fuel n n

/-- Round a natural number to the nearest binary64 value (round to
nearest, ties to even).  Up to `2^53` every integer is exactly
representable; above, the unit in the last place is `2^(⌊log2 n⌋ - 52)`
and the value is rounded to the nearest multiple of it, a tie going to
the even quotient. -/
def roundDoubleNat (n : Nat) : Nat :=
  if n ≤ 2 ^ 53 then n
  else
    let u := 2 ^ (natLog2 n - 52)
    let r := n % u
    if r < u / 2 then n / u * u
    else if u / 2 < r then (n / u + 1) * u
    else if (n / u) % 2 = 0 then n / u * u else (n / u + 1) * u

/-- Round an integer to the nearest binary64 value (rounding commutes
with negation). -/
def roundDouble (n : Int) : Int :=
  if 0 ≤ n then (roundDoubleNat n.toNat : Int)
  else -(roundDoubleNat (-n).toNat : Int)

/-- A JS number as this program's dataflow can produce it: `NaN`, positive
`Infinity`, or a finite double whose value is an integer (every number
here is parsed from digit strings or stepped by `±1`, and every binary64
value of magnitude at least `2^52` is an integer; negative overflow to
`-Infinity` is unreachable, all values staying at least `-1`). -/
inductive JsNumD where
  | nan
  | inf
  | fin (v : Int)
deriving DecidableEq, Repr

/-- The binary64 value nearest to the integer `v`: rounded, and overflowing
to `Infinity` at `2^1024` — a rounded value whose floor-log2 reaches 1024,
i.e. one of at least `2^1024`, is out of exponent range.  (The values this
program feeds in are never negative enough to overflow downward.) -/
def dOfInt (v : Int) : JsNumD :=
  let r := roundDouble v
  if 1024 ≤ natLog2 r.toNat then .inf else .fin r

/-- JS `Number(str)` as a double: the exact parse of `jsStrToNum`,
rounded to binary64 (`NaN` stays `NaN`). -/
def jsStrToNumD (s : String) : JsNumD :=
  match jsStrToNum s with
  | none => .nan
  | some v => dOfInt v

/-- Double `x - 1` on an integer-valued double (exact difference,
correctly rounded). -/
def dSub1 : JsNumD → JsNumD
  | .nan => .nan
  | .inf => .inf
  | .fin v => dOfInt (v - 1)

/-- Double increment `x++` on an integer-valued double: the exact
successor, correctly rounded — which stalls (`fl(v + 1) = v`) for `v` of
magnitude `2^53` and beyond, except one last even-tie step in
`[2^53, 2^54)`. -/
def dInc : JsNumD → JsNumD
  | .nan => .nan
  | .inf => .inf
  | .fin v => dOfInt (v + 1)

/-- JS `<` on numbers (`NaN` incomparable, `Infinity` above every finite
value). -/
def dLtB : JsNumD → JsNumD → Bool
  | .nan, _ => false
  | _, .nan => false
  | .inf, _ => false
  | .fin _, .inf => true
  | .fin a, .fin b => a < b

/-- JS `===` on numbers (`NaN === NaN` is false, `Infinity === Infinity`
is true). -/
def dEqB : JsNumD → JsNumD → Bool
  | .nan, _ => false
  | _, .nan => false
  | .inf, .inf => true
  | .inf, .fin _ => false
  | .fin _, .inf => false
  | .fin a, .fin b => a = b

/-- JS `<=` on numbers. -/
def dLeB : JsNumD → JsNumD → Bool
  | .nan, _ => false
  | _, .nan => false
  | _, .inf => true
  | .inf, .fin _ => false
  | .fin a, .fin b => a ≤ b

/-- `parseMonthField` with double-rounded components: `split('-')`, each
piece through `Number`, the month decremented in double arithmetic
(`undefined - 1` is `NaN`). -/
def parseMonthFieldD (s : String) : JsNumD × JsNumD :=
  let parts := jsSplitDash s
  (jsStrToNumD (parts.headD ""),
   match parts.get? 1 with
   | some p => dSub1 (jsStrToNumD p)
   | none => .nan)

/-- The parsed month range with double-valued bounds. -/
structure MonthRangeD where
  startYear : JsNumD
  startMonth : JsNumD
  endYear : JsNumD
  endMonth : JsNumD
deriving DecidableEq, Repr

/-- Lines 26-49 over doubles: a falsy start defaults to the clock
year/month, a falsy end to the start. -/
def parseMonthRangeD (nowYear nowMonth : Int) (ms me : Option String) : MonthRangeD :=
  let st : JsNumD × JsNumD :=
    match ms with
    | some s => if s ≠ "" then parseMonthFieldD s else (.fin nowYear, .fin nowMonth)
    | none => (.fin nowYear, .fin nowMonth)
  let en : JsNumD × JsNumD :=
    match me with
    | some s => if s ≠ "" then parseMonthFieldD s else st
    | none => st
  ⟨st.1, st.2, en.1, en.2⟩

/-- The loop guard `year < endYear || (year === endYear && month <= endMonth)`
over doubles. -/
def monthGuardD (y m ey em : JsNumD) : Bool :=
  dLtB y ey || (dEqB y ey && dLeB m em)

/-- The `while` loop of lines 65-79 / 90-101 over double loop variables:
run `body`, advance `month++` in double arithmetic, wrapping `month > 11`
to January with a double `year++` — the increment that stalls at `2^53`.
Exhausted fuel renders a genuinely non-terminating run as `.diverges`; the
fuel below (`loopMeasureD`) bounds the length of every terminating run. -/
def monthLoopDFuel (body : JsNumD → JsNumD → List String) :
    Nat → JsNumD → JsNumD → JsNumD → JsNumD → JsResult (List String)
  | 0, _, _, _, _ => .diverges
  | fuel + 1, y, m, ey, em =>
    if monthGuardD y m ey em then
      match (if dLtB (.fin 11) (dInc m) then
               monthLoopDFuel body fuel (dInc y) (.fin 0) ey em
             else monthLoopDFuel body fuel y (dInc m) ey em) with
      | .ok rest => .ok (body y m ++ rest)
      | x => x
    else .ok []

/-- Fuel that bounds every terminating run of the double loop: a run that
ends must drive `year` past `endYear` (or falsify the month condition),
taking at most a month-count proportional to the year gap; runs the fuel
cannot cover (a `NaN`/huge month start beside a larger finite end year, an
infinite end year, or a stalled `year++`) never terminate. -/
def loopMeasureD : JsNumD → JsNumD → JsNumD → Nat
  | .fin y, .fin m, .fin e => loopMeasure y m (some e) + 1
  | .fin y, _, .fin e => loopMeasure y 0 (some e) + 2
  | _, _, _ => 1

/-- The double-faithful `while` loop. -/
def monthLoopD (body : JsNumD → JsNumD → List String) (y m ey em : JsNumD) :
    JsResult (List String) :=
  monthLoopDFuel body (loopMeasureD y m ey) y m ey em

/-- One month of the weekday expansion with double loop variables: a
`NaN`/`Infinity` year or month builds an Invalid `Date`, whose `getDate()`
is `NaN`, so the inner day loop runs zero times; finite values behave as
in the exact model. -/
def weekdayMonthBodyD (dayIndices : List Nat) : JsNumD → JsNumD → List String
  | .fin y, .fin m => weekdayMonthBody dayIndices y m
  | _, _ => []

/-- One month of the specific-day expansion with double loop variables
(`NaN`/`Infinity` months admit no day at all: `day <= NaN` is false). -/
def specificMonthBodyD (specificDays : List Int) : JsNumD → JsNumD → List String
  | .fin y, .fin m => specificMonthBody specificDays y m
  | _, _ => []

/-- Lines 61-82 over doubles: the weekday pass and its final sort. -/
def weekdayPhaseD (r : MonthRangeD) (dayIndices : List Nat) : JsResult (List String) :=
  if dayIndices.length > 0 then
    match monthLoopD (weekdayMonthBodyD dayIndices) r.startYear r.startMonth
        r.endYear r.endMonth with
    | .ok ds => .ok (jsSortStrings ds)
    | x => x
  else .ok []

/-- Lines 84-102 over doubles: the guarded specific-day pass. -/
def specificPhaseD (r : MonthRangeD) (specificDays : Option (List Int))
    (dates : List String) : JsResult (List String) :=
  match specificDays with
  | some sd =>
    if sd.length > 0 ∧ dates.length = 0 then
      match monthLoopD (specificMonthBodyD sd) r.startYear r.startMonth
          r.endYear r.endMonth with
      | .ok ds => .ok (dates ++ ds)
      | x => x
    else .ok dates
  | none => .ok dates

/-- `calculateRecurringDates(analysis)` with the numeric state modelled as
binary64 doubles — the refinement on which the totality claim is settled. -/
def calculateRecurringDatesD (nowYear nowMonth : Int) (a : Analysis) :
    JsResult (List String) :=
  if !a.is_recurring then .ok []
  else
    let r := parseMonthRangeD nowYear nowMonth a.recurring_month_start a.recurring_month_end
    match dayNamesOf a with
    | .error e => .thrown e
    | .ok dayNames =>
      match weekdayPhaseD r (dayIndicesOf dayNames) with
      | .ok dates => specificPhaseD r a.recurring_specific_days dates
      | x => x

/-- If the guard holds then the end bound is an integer and not yet passed. -/
theorem monthGuard_some {y m : Int} {ey em : Option Int}
    (hg : monthGuard y m ey em = true) : ∃ e, ey = some e ∧ y ≤ e := by
  cases ey with
  | none => simp [monthGuard, optLtB, optEqB] at hg
  | some e =>
    refine ⟨e, rfl, ?_⟩
    simp only [monthGuard, optLtB, optEqB, optLeB, Bool.or_eq_true, Bool.and_eq_true,
      decide_eq_true_eq] at hg
    rcases hg with h | ⟨h, _⟩ <;> omega

/-- The result of `monthLoopFuel` does not depend on the fuel, as long as the
fuel exceeds `loopMeasure`. -/
theorem monthLoopFuel_eq (body : Int → Int → List String) :
    ∀ (n : Nat) (y m : Int) (ey em : Option Int) (f g : Nat),
      loopMeasure y m ey = n → n < f → n < g →
      monthLoopFuel body f y m ey em = monthLoopFuel body g y m ey em := by
  intro n
  induction n using Nat.strong_induction_on with
  | _ n ih =>
    intro y m ey em f g hn hf hg
    match f, g with
    | f' + 1, g' + 1 =>
      simp only [monthLoopFuel]
      by_cases hguard : monthGuard y m ey em = true
      · rw [hguard, if_pos rfl, if_pos rfl]
        obtain ⟨e, rfl, hy⟩ := monthGuard_some hguard
        by_cases hw : m + 1 > 11
        · rw [if_pos hw, if_pos hw]
          have hlt : loopMeasure (y + 1) 0 (some e) < n := by
            simp only [loopMeasure] at hn ⊢
            split_ifs at hn ⊢ <;> omega
          rw [ih _ hlt (y + 1) 0 (some e) em f' g' rfl (by omega) (by omega)]
        · rw [if_neg hw, if_neg hw]
          have hlt : loopMeasure y (m + 1) (some e) < n := by
            simp only [loopMeasure] at hn ⊢
            split_ifs at hn ⊢ <;> omega
          rw [ih _ hlt y (m + 1) (some e) em f' g' rfl (by omega) (by omega)]
      · rw [Bool.eq_false_iff.mpr hguard]
        simp

/-- One structural step of the fuel-indexed loop. -/
theorem monthLoopFuel_succ (body : Int → Int → List String) (f : Nat) (y m : Int)
    (ey em : Option Int) :
    monthLoopFuel body (f + 1) y m ey em =
      if monthGuard y m ey em then
        body y m ++
          (if m + 1 > 11 then monthLoopFuel body f (y + 1) 0 ey em
           else monthLoopFuel body f y (m + 1) ey em)
      else [] := rfl

/-- The defining equation of the `while` loop. -/
theorem monthLoopInt_eq (body : Int → Int → List String) (y m : Int) (ey em : Option Int) :
    monthLoopInt body y m ey em =
      if monthGuard y m ey em then
        body y m ++
          (if m + 1 > 11 then monthLoopInt body (y + 1) 0 ey em
           else monthLoopInt body y (m + 1) ey em)
      else [] := by
  unfold monthLoopInt
  rw [monthLoopFuel_succ]
  by_cases hguard : monthGuard y m ey em = true
  · rw [if_pos hguard, if_pos hguard]
    obtain ⟨e, rfl, hy⟩ := monthGuard_some hguard
    by_cases hw : m + 1 > 11
    · rw [if_pos hw, if_pos hw]
      have hlt : loopMeasure (y + 1) 0 (some e) < loopMeasure y m (some e) := by
        simp only [loopMeasure]
        split_ifs <;> omega
      rw [monthLoopFuel_eq body (loopMeasure (y + 1) 0 (some e)) (y + 1) 0 (some e) em
        (loopMeasure y m (some e)) (loopMeasure (y + 1) 0 (some e) + 1) rfl (by omega)
        (by omega)]
    · rw [if_neg hw, if_neg hw]
      have hlt : loopMeasure y (m + 1) (some e) < loopMeasure y m (some e) := by
        simp only [loopMeasure]
        split_ifs <;> omega
      rw [monthLoopFuel_eq body (loopMeasure y (m + 1) (some e)) y (m + 1) (some e) em
        (loopMeasure y m (some e)) (loopMeasure y (m + 1) (some e) + 1) rfl (by omega)
        (by omega)]
  · rw [if_neg hguard, if_neg hguard]

/-! ## Equations and termination of the double month loop -/

/-- One structural step of the double loop. -/
theorem monthLoopDFuel_succ (body : JsNumD → JsNumD → List String) (f : Nat)
    (y m ey em : JsNumD) :
    monthLoopDFuel body (f + 1) y m ey em =
      if monthGuardD y m ey em then
        match (if dLtB (.fin 11) (dInc m) then
                 monthLoopDFuel body f (dInc y) (.fin 0) ey em
               else monthLoopDFuel body f y (dInc m) ey em) with
        | .ok rest => .ok (body y m ++ rest)
        | x => x
      else .ok [] := rfl

/-- The double loop really hangs on the flagged huge-year range: starting
at year `10^16` (where the binary64 `year++` is a no-op: the unit in the
last place is 2) with end year `10^16 + 2`, the guard holds forever — no
amount of fuel produces a value.  `Number` parses both bounds exactly, so
this divergence is reached from fully parseable input. -/
theorem monthLoopDFuel_stall_diverges (body : JsNumD → JsNumD → List String) :
    ∀ (f : Nat) (m em : JsNumD),
      monthLoopDFuel body f (.fin 10000000000000000) m
        (.fin 10000000000000002) em = .diverges := by
  intro f
  induction f with
  | zero => intro m em; rfl
  | succ f ih =>
    intro m em
    rw [monthLoopDFuel_succ]
    have h1 : dLtB (.fin (10000000000000000 : Int))
        (.fin (10000000000000002 : Int)) = true := by decide
    have hg : monthGuardD (.fin 10000000000000000) m
        (.fin 10000000000000002) em = true := by
      simp [monthGuardD, h1]
    rw [if_pos hg]
    have hst : dInc (.fin (10000000000000000 : Int)) = .fin 10000000000000000 := by
      decide
    by_cases h : dLtB (.fin 11) (dInc m) = true
    · rw [if_pos h, hst, ih]
    · rw [if_neg h, ih]


/-! ## Order lemmas for the JS string comparison -/

theorem charLtB_iff {a b : Char} : charLtB a b = true ↔ a < b := by
  simp [charLtB, Char.lt_def, UInt32.lt_def, BitVec.lt_def, Char.toNat, UInt32.toNat]

theorem lexLtB_iff : ∀ l₁ l₂ : List Char, lexLtB l₁ l₂ = true ↔ List.Lex (· < ·) l₁ l₂ := by
  intro l₁
  induction l₁ with
  | nil =>
    intro l₂
    cases l₂ with
    | nil => simp [lexLtB]
    | cons c cs => simpa [lexLtB] using List.Lex.nil
  | cons a as ih =>
    intro l₂
    cases l₂ with
    | nil =>
      simp only [lexLtB, Bool.false_eq_true, false_iff]
      exact fun h => by cases h
    | cons b bs =>
      by_cases hab : charLtB a b = true
      · simp only [lexLtB, hab, if_true, true_iff]
        exact List.Lex.rel (charLtB_iff.mp hab)
      · by_cases hba : charLtB b a = true
        · simp only [lexLtB, hab, hba, Bool.false_eq_true, if_false, if_true, false_iff]
          intro h
          cases h with
          | rel h' => exact absurd h' (lt_asymm (charLtB_iff.mp hba))
          | cons _ => exact absurd (charLtB_iff.mp hba) (lt_irrefl a)
        · have hEq : a = b := by
            have h₁ : ¬ a < b := by simpa [charLtB_iff] using hab
            have h₂ : ¬ b < a := by simpa [charLtB_iff] using hba
            exact le_antisymm (not_lt.mp h₂) (not_lt.mp h₁)
          subst hEq
          simp only [lexLtB, hab, Bool.false_eq_true, if_false, ih bs]
          constructor
          · exact fun h => List.Lex.cons h
          · intro h
            cases h with
            | rel h' => exact absurd h' (lt_irrefl a)
            | cons h' => exact h'

theorem lexLtB_lt_iff {l₁ l₂ : List Char} : lexLtB l₁ l₂ = true ↔ l₁ < l₂ :=
  (lexLtB_iff l₁ l₂).trans Iff.rfl

theorem strLtB_iff {s t : String} : strLtB s t = true ↔ s.data < t.data := by
  rw [strLtB, lexLtB_lt_iff]

theorem strLeB_iff {s t : String} : strLeB s t = true ↔ s.data ≤ t.data := by
  have h₁ : strLeB s t = true ↔ ¬(lexLtB t.data s.data = true) := by
    rw [strLeB, strLtB]
    cases lexLtB t.data s.data <;> simp
  rw [h₁, lexLtB_lt_iff]
  exact not_lt

theorem jsLeRel_iff {s t : String} : jsLeRel s t ↔ s.data ≤ t.data := strLeB_iff

theorem jsLeRel_refl (s : String) : jsLeRel s s := jsLeRel_iff.mpr le_rfl

instance : IsTrans String jsLeRel :=
  ⟨fun _ _ _ h₁ h₂ => jsLeRel_iff.mpr (le_trans (jsLeRel_iff.mp h₁) (jsLeRel_iff.mp h₂))⟩

instance : IsTotal String jsLeRel :=
  ⟨fun s t => by
    rcases le_total s.data t.data with h | h
    · exact Or.inl (jsLeRel_iff.mpr h)
    · exact Or.inr (jsLeRel_iff.mpr h)⟩

theorem jsSortStrings_sorted (l : List String) : List.Sorted jsLeRel (jsSortStrings l) :=
  List.sorted_insertionSort jsLeRel l

theorem jsSortStrings_perm (l : List String) : (jsSortStrings l).Perm l :=
  List.perm_insertionSort jsLeRel l

/-- Strict ascent: a `≤`-sorted, duplicate-free list is `<`-sorted. -/
theorem sorted_strict_of_nodup {l : List String} (hs : List.Sorted jsLeRel l)
    (hn : l.Nodup) : List.Pairwise (fun a b => strLtB a b = true) l := by
  have := List.Pairwise.and hs hn
  refine this.imp ?_
  rintro a b ⟨hle, hne⟩
  rw [strLtB_iff]
  refine lt_of_le_of_ne (jsLeRel_iff.mp hle) ?_
  intro hdata
  exact hne (String.toList_inj.mp hdata)

theorem sorted_all_le_getLast :
    ∀ (l : List String) (hl : l ≠ []), List.Sorted jsLeRel l →
      ∀ x ∈ l, jsLeRel x (l.getLast hl) := by
  intro l
  induction l with
  | nil => intro hl; exact absurd rfl hl
  | cons a as ih =>
    intro _ hs x hx
    cases as with
    | nil =>
      rcases List.mem_singleton.mp hx with rfl
      exact jsLeRel_refl x
    | cons b bs =>
      rw [List.getLast_cons (by simp)]
      rcases List.mem_cons.mp hx with rfl | hx'
      · have h1 := (List.sorted_cons.mp hs).1 b (by simp)
        have h2 := ih (by simp) (List.sorted_cons.mp hs).2 b (by simp)
        exact jsLeRel_iff.mpr (le_trans (jsLeRel_iff.mp h1) (jsLeRel_iff.mp h2))
      · exact ih (by simp) (List.sorted_cons.mp hs).2 x hx'

/-- The last element of the JS sort of a non-empty list is its maximum. -/
theorem jsSortStrings_last_max (l : List String) (h : l ≠ []) :
    ∃ mx, (jsSortStrings l).getLast? = some mx ∧ mx ∈ l ∧
      ∀ x ∈ l, strLeB x mx = true := by
  have hne : jsSortStrings l ≠ [] := by
    intro hempty
    have hp := jsSortStrings_perm l
    rw [hempty] at hp
    exact h hp.symm.eq_nil
  refine ⟨(jsSortStrings l).getLast hne, List.getLast?_eq_getLast _ hne, ?_, ?_⟩
  · exact (jsSortStrings_perm l).mem_iff.mp (List.getLast_mem hne)
  · intro x hx
    exact sorted_all_le_getLast _ hne (jsSortStrings_sorted l) x
      ((jsSortStrings_perm l).mem_iff.mpr hx)

/-! ## Decimal-representation round trips -/

theorem digitChar_toNat : ∀ n, n < 10 → (Nat.digitChar n).toNat - 48 = n := by decide

theorem toDigitsCore_acc (fuel : Nat) :
    ∀ (n : Nat) (acc : List Char),
      Nat.toDigitsCore 10 fuel n acc = Nat.toDigitsCore 10 fuel n [] ++ acc := by
  induction fuel with
  | zero => intro n acc; simp [Nat.toDigitsCore]
  | succ f ih =>
    intro n acc
    simp only [Nat.toDigitsCore]
    by_cases h : n / 10 = 0
    · simp [h]
    · simp only [h, if_false]
      rw [ih (n / 10) (Nat.digitChar (n % 10) :: acc), ih (n / 10) [Nat.digitChar (n % 10)]]
      simp

theorem parseDigits_append_one (xs : List Char) (c : Char) :
    parseDigits (xs ++ [c]) = parseDigits xs * 10 + (c.toNat - 48) := by
  simp [parseDigits, List.foldl_append]

theorem parseDigits_toDigitsCore :
    ∀ (fuel n : Nat), n < fuel → parseDigits (Nat.toDigitsCore 10 fuel n []) = n := by
  intro fuel
  induction fuel with
  | zero => intro n hn; omega
  | succ f ih =>
    intro n hn
    simp only [Nat.toDigitsCore]
    by_cases h : n / 10 = 0
    · have h10 : n < 10 := by omega
      have hd := digitChar_toNat (n % 10) (by omega)
      have hmod : n % 10 = n := Nat.mod_eq_of_lt h10
      simp only [h, if_true]
      simp [parseDigits]
      omega
    · simp only [h, if_false]
      rw [toDigitsCore_acc, parseDigits_append_one, ih (n / 10) (by omega),
        digitChar_toNat (n % 10) (by omega)]
      omega

theorem parseDigits_repr (n : Nat) : parseDigits (Nat.repr n).data = n := by
  show parseDigits (Nat.toDigits 10 n).asString.data = n
  show parseDigits (Nat.toDigitsCore 10 (n + 1) n []) = n
  exact parseDigits_toDigitsCore (n + 1) n (by omega)

theorem Nat_repr_inj {m n : Nat} (h : Nat.repr m = Nat.repr n) : m = n := by
  have h' := congrArg (fun s => parseDigits s.data) h
  simpa [parseDigits_repr] using h'

theorem parseDigits_replicate_zero (k : Nat) (l : List Char) :
    parseDigits (List.replicate k '0' ++ l) = parseDigits l := by
  induction k with
  | zero => simp
  | succ j ih =>
    have : List.replicate (j + 1) '0' ++ l = '0' :: (List.replicate j '0' ++ l) := by
      simp [List.replicate_succ]
    rw [this]
    show List.foldl _ (0 * 10 + ('0'.toNat - 48)) _ = _
    have h0 : (0 : Nat) * 10 + ('0'.toNat - 48) = 0 := by decide
    rw [h0]
    exact ih

theorem padStart2_data (s : String) :
    (padStart2 s).data = List.replicate (2 - s.length) '0' ++ s.data := by
  simp [padStart2, String.data_append]

theorem parseDigits_padStart2_repr (n : Nat) :
    parseDigits (padStart2 (Nat.repr n)).data = n := by
  rw [padStart2_data, parseDigits_replicate_zero, parseDigits_repr]

theorem padStart2_repr_inj {m n : Nat}
    (h : (padStart2 (Nat.repr m)).data = (padStart2 (Nat.repr n)).data) : m = n := by
  have h' := congrArg parseDigits h
  rwa [parseDigits_padStart2_repr, parseDigits_padStart2_repr] at h'

theorem toDigitsCore_small {fuel n : Nat} (hn : n < 10) (hf : 0 < fuel) :
    Nat.toDigitsCore 10 fuel n [] = [Nat.digitChar n] := by
  cases fuel with
  | zero => omega
  | succ f =>
    simp [Nat.toDigitsCore, Nat.div_eq_of_lt hn, Nat.mod_eq_of_lt hn]

theorem repr_data_small {n : Nat} (hn : n < 10) :
    (Nat.repr n).data = [Nat.digitChar n] := by
  show (Nat.toDigitsCore 10 (n + 1) n []) = [Nat.digitChar n]
  exact toDigitsCore_small hn (by omega)

theorem repr_data_two {n : Nat} (h10 : 10 ≤ n) (h100 : n < 100) :
    (Nat.repr n).data = [Nat.digitChar (n / 10), Nat.digitChar (n % 10)] := by
  show (Nat.toDigitsCore 10 (n + 1) n []) = _
  have hd : n / 10 ≠ 0 := by omega
  simp only [Nat.toDigitsCore, hd, if_false]
  rw [toDigitsCore_acc, toDigitsCore_small (by omega) (by omega)]
  rfl

theorem padStart2_repr_length {n : Nat} (h : n < 100) :
    (padStart2 (Nat.repr n)).data.length = 2 := by
  rw [padStart2_data]
  by_cases h10 : n < 10
  · have hl : (Nat.repr n).length = 1 := by
      show (Nat.repr n).data.length = 1
      rw [repr_data_small h10]
      rfl
    rw [repr_data_small h10]
    simp [hl]
  · have hl : (Nat.repr n).length = 2 := by
      show (Nat.repr n).data.length = 2
      rw [repr_data_two (by omega) h]
      rfl
    rw [repr_data_two (by omega) h]
    simp [hl]

/-! ## Injectivity of the date template -/

theorem Int_toString_ofNat (n : Nat) : toString ((n : Nat) : Int) = Nat.repr n := rfl

theorem fmtDate_data (y m d : Int) :
    (fmtDate y m d).data =
      (toString y).data ++
        '-' :: ((padStart2 (toString m)).data ++ '-' :: (padStart2 (toString d)).data) := by
  simp [fmtDate, String.data_append]

theorem fmtDate_inj {y₁ y₂ m₁ m₂ d₁ d₂ : Int}
    (hy₁ : 0 ≤ y₁) (hy₂ : 0 ≤ y₂)
    (hm₁ : 0 ≤ m₁) (hm₁' : m₁ < 100) (hm₂ : 0 ≤ m₂) (hm₂' : m₂ < 100)
    (hd₁ : 0 ≤ d₁) (hd₁' : d₁ < 100) (hd₂ : 0 ≤ d₂) (hd₂' : d₂ < 100)
    (h : fmtDate y₁ m₁ d₁ = fmtDate y₂ m₂ d₂) : y₁ = y₂ ∧ m₁ = m₂ ∧ d₁ = d₂ := by
  obtain ⟨a₁, rfl⟩ := Int.eq_ofNat_of_zero_le hy₁
  obtain ⟨a₂, rfl⟩ := Int.eq_ofNat_of_zero_le hy₂
  obtain ⟨b₁, rfl⟩ := Int.eq_ofNat_of_zero_le hm₁
  obtain ⟨b₂, rfl⟩ := Int.eq_ofNat_of_zero_le hm₂
  obtain ⟨c₁, rfl⟩ := Int.eq_ofNat_of_zero_le hd₁
  obtain ⟨c₂, rfl⟩ := Int.eq_ofNat_of_zero_le hd₂
  have hb₁ : b₁ < 100 := by exact_mod_cast hm₁'
  have hb₂ : b₂ < 100 := by exact_mod_cast hm₂'
  have hc₁ : c₁ < 100 := by exact_mod_cast hd₁'
  have hc₂ : c₂ < 100 := by exact_mod_cast hd₂'
  have hdata := congrArg String.data h
  rw [fmtDate_data, fmtDate_data, Int_toString_ofNat, Int_toString_ofNat,
    Int_toString_ofNat, Int_toString_ofNat, Int_toString_ofNat, Int_toString_ofNat] at hdata
  have hlen : ∀ (b c : Nat), b < 100 → c < 100 →
      ('-' :: ((padStart2 (Nat.repr b)).data ++ '-' :: (padStart2 (Nat.repr c)).data)).length
        = 6 := by
    intro b c hb hc
    simp [padStart2_repr_length hb, padStart2_repr_length hc]
  obtain ⟨hy, hsuf⟩ := List.append_inj' hdata
    (by rw [hlen b₁ c₁ hb₁ hc₁, hlen b₂ c₂ hb₂ hc₂])
  have hsuf' := List.cons.inj hsuf
  obtain ⟨hm, hsuf''⟩ := List.append_inj' hsuf'.2
    (by simp [padStart2_repr_length hc₁, padStart2_repr_length hc₂])
  have hdd := (List.cons.inj hsuf'').2
  refine ⟨?_, ?_, ?_⟩
  · have hp := congrArg parseDigits hy
    rw [parseDigits_repr, parseDigits_repr] at hp
    exact congrArg (fun k : Nat => (k : Int)) hp
  · exact congrArg (fun k : Nat => (k : Int)) (padStart2_repr_inj hm)
  · exact congrArg (fun k : Nat => (k : Int)) (padStart2_repr_inj hdd)

/-! ## Characterizing the month loop -/

theorem monthGuard_iff {y m ey em : Int} (hm0 : 0 ≤ m) (hm : m ≤ 11)
    (hem0 : 0 ≤ em) (hem : em ≤ 11) :
    monthGuard y m (some ey) (some em) = true ↔ y * 12 + m ≤ ey * 12 + em := by
  simp only [monthGuard, optLtB, optEqB, optLeB, Bool.or_eq_true, Bool.and_eq_true,
    decide_eq_true_eq]
  omega

theorem monthLoopInt_formula (body : Int → Int → List String) :
    ∀ (N : Nat) (sy sm ey em : Int), 0 ≤ sm → sm ≤ 11 → 0 ≤ em → em ≤ 11 →
      (ey * 12 + em + 1 - (sy * 12 + sm)).toNat = N →
      monthLoopInt body sy sm (some ey) (some em) =
        ((List.range N).map (fun (i : Nat) =>
          body ((sy * 12 + sm + (i : Int)) / 12) ((sy * 12 + sm + (i : Int)) % 12))).flatten := by
  intro N
  induction N with
  | zero =>
    intro sy sm ey em h1 h2 h3 h4 hN
    rw [monthLoopInt_eq]
    have hg : monthGuard sy sm (some ey) (some em) = false := by
      rw [Bool.eq_false_iff]
      intro hg
      rw [monthGuard_iff h1 h2 h3 h4] at hg
      omega
    simp [hg]
  | succ n ih =>
    intro sy sm ey em h1 h2 h3 h4 hN
    rw [monthLoopInt_eq]
    have hg : monthGuard sy sm (some ey) (some em) = true := by
      rw [monthGuard_iff h1 h2 h3 h4]
      omega
    rw [hg, if_pos rfl]
    rw [List.range_succ_eq_map, List.map_cons, List.flatten_cons, List.map_map]
    have hhead : body ((sy * 12 + sm + ((0 : Nat) : Int)) / 12)
        ((sy * 12 + sm + ((0 : Nat) : Int)) % 12) = body sy sm := by
      rw [show (sy * 12 + sm + ((0 : Nat) : Int)) / 12 = sy by omega,
        show (sy * 12 + sm + ((0 : Nat) : Int)) % 12 = sm by omega]
    by_cases hw : sm + 1 > 11
    · have hsm : sm = 11 := by omega
      subst hsm
      rw [if_pos hw]
      rw [ih (sy + 1) 0 ey em (by omega) (by omega) h3 h4 (by omega)]
      rw [hhead]
      refine congrArg (body sy 11 ++ ·) (congrArg List.flatten (List.map_congr_left ?_))
      intro i _
      simp only [Function.comp_apply]
      rw [show (sy + 1) * 12 + 0 + (i : Int) = sy * 12 + 11 + ((Nat.succ i : Nat) : Int) by
        push_cast; ring]
    · rw [if_neg hw]
      rw [ih sy (sm + 1) ey em (by omega) (by omega) h3 h4 (by omega)]
      rw [hhead]
      refine congrArg (body sy sm ++ ·) (congrArg List.flatten (List.map_congr_left ?_))
      intro i _
      simp only [Function.comp_apply]
      rw [show sy * 12 + (sm + 1) + (i : Int) = sy * 12 + sm + ((Nat.succ i : Nat) : Int) by
        push_cast; ring]

theorem mem_monthLoopInt {body : Int → Int → List String} {sy sm ey em : Int}
    (h1 : 0 ≤ sm) (h2 : sm ≤ 11) (h3 : 0 ≤ em) (h4 : em ≤ 11) {s : String} :
    s ∈ monthLoopInt body sy sm (some ey) (some em) ↔
      ∃ y m : Int, 0 ≤ m ∧ m ≤ 11 ∧ sy * 12 + sm ≤ y * 12 + m ∧
        y * 12 + m ≤ ey * 12 + em ∧ s ∈ body y m := by
  rw [monthLoopInt_formula body ((ey * 12 + em + 1 - (sy * 12 + sm)).toNat) sy sm ey em
    h1 h2 h3 h4 rfl]
  rw [List.mem_flatten]
  constructor
  · rintro ⟨l, hl, hs⟩
    rw [List.mem_map] at hl
    obtain ⟨i, hi, rfl⟩ := hl
    rw [List.mem_range] at hi
    exact ⟨(sy * 12 + sm + i) / 12, (sy * 12 + sm + i) % 12, by omega, by omega, by omega,
      by omega, hs⟩
  · rintro ⟨y, m, hm0, hm11, hge, hle, hs⟩
    refine ⟨body y m, ?_, hs⟩
    rw [List.mem_map]
    refine ⟨(y * 12 + m - (sy * 12 + sm)).toNat, by rw [List.mem_range]; omega, ?_⟩
    rw [show sy * 12 + sm + (((y * 12 + m - (sy * 12 + sm)).toNat : Nat) : Int) = y * 12 + m
      by omega]
    rw [show (y * 12 + m) / 12 = y by omega, show (y * 12 + m) % 12 = m by omega]

/-! ## Characterizing the loop bodies -/

theorem normYM_eq {y m : Int} (h0 : 0 ≤ m) (h1 : m ≤ 11) : normYM y m = (y, m.toNat) := by
  unfold normYM
  refine Prod.ext ?_ ?_
  · show y + m / 12 = y
    omega
  · show (m % 12).toNat = m.toNat
    omega

theorem mem_weekdayMonthBody {di : List Nat} {y m : Int} (h0 : 0 ≤ m) (h1 : m ≤ 11)
    {s : String} :
    s ∈ weekdayMonthBody di y m ↔
      ∃ d : Nat, 1 ≤ d ∧ d ≤ daysInMonth y (m.toNat + 1) ∧
        jsGetDay y (m.toNat + 1) d ∈ di ∧ s = fmtDate y (m + 1) (d : Int) := by
  have hn := normYM_eq (y := y) h0 h1
  simp only [weekdayMonthBody, hn, List.mem_filterMap, List.mem_range]
  constructor
  · rintro ⟨i, hi, hf⟩
    by_cases hc : di.contains (jsGetDay y (m.toNat + 1) (i + 1)) = true
    · rw [if_pos hc, Option.some.injEq] at hf
      refine ⟨i + 1, by omega, by omega, List.elem_iff.mp hc, ?_⟩
      rw [← hf]
      rw [show ((m.toNat : Int) + 1) = m + 1 by omega,
        show ((i : Int) + 1) = ((i + 1 : Nat) : Int) by push_cast; ring]
    · rw [if_neg hc] at hf
      cases hf
  · rintro ⟨d, hd1, hd2, hmem, rfl⟩
    refine ⟨d - 1, by omega, ?_⟩
    have hd' : d - 1 + 1 = d := by omega
    rw [hd']
    rw [if_pos (List.elem_iff.mpr hmem)]
    rw [show ((m.toNat : Int) + 1) = m + 1 by omega,
      show ((d - 1 : Nat) : Int) + 1 = ((d : Nat) : Int) by omega]

theorem mem_specificMonthBody {sd : List Int} {y m : Int} {s : String} :
    s ∈ specificMonthBody sd y m ↔
      ∃ day ∈ sd, 1 ≤ day ∧
        day ≤ (daysInMonth (normYM y m).1 ((normYM y m).2 + 1) : Int) ∧
        s = fmtDate y (m + 1) day := by
  simp only [specificMonthBody, List.mem_filterMap]
  constructor
  · rintro ⟨day, hday, hf⟩
    by_cases hc : 1 ≤ day ∧ day ≤ (daysInMonth (normYM y m).1 ((normYM y m).2 + 1) : Int)
    · rw [if_pos hc, Option.some.injEq] at hf
      exact ⟨day, hday, hc.1, hc.2, hf.symm⟩
    · rw [if_neg hc] at hf
      cases hf
  · rintro ⟨day, hday, h1, h2, rfl⟩
    exact ⟨day, hday, by rw [if_pos ⟨h1, h2⟩]⟩

/-! ## Small order facts used by the expiration resolver -/

theorem lexLtB_nil_right : ∀ l : List Char, lexLtB l [] = false := by
  intro l
  cases l <;> rfl

theorem strLeB_empty_left (t : String) : strLeB "" t = true := by
  show (!(lexLtB t.data [])) = true
  rw [lexLtB_nil_right]
  rfl

/-! ## C1 -/

/-- C1: for every event record, the effective expiration date is `none` when
the primary date is absent; it is the primary date unchanged when the event
is not recurring or the expanded date list is empty; and when the event is
recurring with a non-empty expanded list it is the maximum (lexicographically
last) date over the union of the primary date and all expanded dates. -/
theorem effective_expiration_spec (e : EventRecord) :
    (e.date = none → getEffectiveExpirationDate e = none) ∧
    (∀ d : String, e.date = some d → d ≠ "" →
      ((e.is_recurring = false ∨ e.recurring_dates.getD [] = []) →
        getEffectiveExpirationDate e = some d) ∧
      (e.is_recurring = true → e.recurring_dates.getD [] ≠ [] →
        ∃ mx, getEffectiveExpirationDate e = some mx ∧
          mx ∈ d :: e.recurring_dates.getD [] ∧
          ∀ x ∈ d :: e.recurring_dates.getD [], strLeB x mx = true)) := by
  constructor
  · intro h
    simp [getEffectiveExpirationDate, h]
  · intro d hd hne
    constructor
    · rintro (h | h)
      · simp [getEffectiveExpirationDate, hd, hne, h]
      · simp [getEffectiveExpirationDate, hd, hne, h]
    · intro hrec hne2
      have hdmem : d ∈ (d :: e.recurring_dates.getD []).filter (fun x => x ≠ "") :=
        List.mem_filter.mpr ⟨List.mem_cons_self _ _, by simp [hne]⟩
      have hfil : (d :: e.recurring_dates.getD []).filter (fun x => x ≠ "") ≠ [] :=
        List.ne_nil_of_mem hdmem
      obtain ⟨mx, hlast, hmem, hmax⟩ := jsSortStrings_last_max _ hfil
      have hmx : mx ∈ d :: e.recurring_dates.getD [] := (List.mem_filter.mp hmem).1
      have hmxne : mx ≠ "" := by
        have := (List.mem_filter.mp hmem).2
        simpa using this
      refine ⟨mx, ?_, hmx, ?_⟩
      · have hlen : (e.recurring_dates.getD []).length ≠ 0 := by
          intro h0
          exact hne2 (List.length_eq_zero.mp h0)
        simp only [getEffectiveExpirationDate, hd]
        rw [if_neg hne]
        rw [if_neg (by simp [hrec, hlen])]
        rw [hlast]
        simp [hmxne]
      · intro x hx
        by_cases hxe : x = ""
        · subst hxe
          exact strLeB_empty_left mx
        · exact hmax x (List.mem_filter.mpr ⟨hx, by simp [hxe]⟩)

/-- C1 witness: the changelog scenario. -/
theorem effective_expiration_spec_witness :
    ∃ mx,
      getEffectiveExpirationDate
        ⟨some "2026-02-10", true, some ["2026-02-10", "2026-02-15", "2026-02-20"]⟩ =
        some mx ∧
      mx ∈ ["2026-02-10", "2026-02-10", "2026-02-15", "2026-02-20"] ∧
      ∀ x ∈ ["2026-02-10", "2026-02-10", "2026-02-15", "2026-02-20"], strLeB x mx = true :=
  ((effective_expiration_spec
      ⟨some "2026-02-10", true, some ["2026-02-10", "2026-02-15", "2026-02-20"]⟩).2
    "2026-02-10" rfl (by decide)).2 rfl (by decide)

/-! ## C10 -/

/-- C10: a non-recurring analysis whose `recurring_specific_days` is not an
array, or is an array with at most one entry, produces an empty expanded
date set — the explicit multi-day branch fires only for strictly more than
one entry. -/
theorem single_day_no_expansion (nowY nowM : Int) (a : Analysis)
    (hrec : a.is_recurring = false)
    (hsd : a.recurring_specific_days = none ∨
      ∃ l, a.recurring_specific_days = some l ∧ l.length ≤ 1) :
    computeRecurringDates nowY nowM a = .ok [] := by
  unfold computeRecurringDates
  rw [hrec]
  simp only [Bool.false_eq_true, if_false]
  rcases hsd with h | ⟨l, h, hlen⟩
  · rw [h]
  · rw [h]
    have h1 : ¬ l.length > 1 := by omega
    simp [h1]

/-- C10 witness: a single 13 with a primary date yields no expanded dates. -/
theorem single_day_no_expansion_witness :
    computeRecurringDates 2026 1
      { is_recurring := false, recurring_specific_days := some [13],
        date := some "2026-02-13" } = .ok [] :=
  single_day_no_expansion 2026 1 _ rfl (Or.inr ⟨[13], rfl, by decide⟩)

/-! ## C9 -/

/-- C9: when the upstream guess omits (or leaves falsy) both month bounds,
both default to the current clock month; when a well-formed `monthStart` is
supplied and `monthEnd` is omitted, the end bound defaults to the start
bound, so the resulting bounds are well-formed with start ≤ end. -/
theorem month_range_defaulting (nowY nowM : Int) :
    (∀ ms me : Option String, (ms = none ∨ ms = some "") → (me = none ∨ me = some "") →
      parseMonthRange nowY nowM ms me = ⟨some nowY, some nowM, some nowY, some nowM⟩) ∧
    (∀ s sy sm, parseMonthField s = (some sy, some sm) →
      ∀ me : Option String, (me = none ∨ me = some "") →
        parseMonthRange nowY nowM (some s) me = ⟨some sy, some sm, some sy, some sm⟩ ∧
          sy * 12 + sm ≤ sy * 12 + sm) := by
  constructor
  · rintro ms me (rfl | rfl) (rfl | rfl) <;> simp [parseMonthRange]
  · intro s sy sm hparse me hme
    by_cases hs : s = ""
    · subst hs
      rw [show parseMonthField "" = (some 0, none) from rfl] at hparse
      simp [Prod.ext_iff] at hparse
    · refine ⟨?_, le_refl _⟩
      rcases hme with rfl | rfl <;> simp [parseMonthRange, hs, hparse]

/-- C9 witness: start `"2026-09"` with no end bound gives the range
September 2026 to September 2026. -/
theorem month_range_defaulting_witness :
    parseMonthRange 2026 5 (some "2026-09") none =
      ⟨some 2026, some 8, some 2026, some 8⟩ ∧ (2026 : Int) * 12 + 8 ≤ 2026 * 12 + 8 :=
  (month_range_defaulting 2026 5).2 "2026-09" 2026 8 (by decide) none (Or.inl rfl)

/-! ## C7 -/

/-- C7: in a recurring analysis, the weekday-based pass takes priority: a
non-empty weekday result is returned untouched (the specific-day data is
never consulted, so the two expansions are never mixed), and the
specific-day pass contributes only when the weekday pass produced an empty
list. -/
theorem weekday_precedence (nowY nowM : Int) (a : Analysis) (names : List String)
    (hrec : a.is_recurring = true) (hnames : dayNamesOf a = .ok names) :
    (∀ ds, weekdayPhase
        (parseMonthRange nowY nowM a.recurring_month_start a.recurring_month_end)
        (dayIndicesOf names) = .ok ds → ds ≠ [] →
      calculateRecurringDates nowY nowM a = .ok ds) ∧
    (weekdayPhase (parseMonthRange nowY nowM a.recurring_month_start a.recurring_month_end)
        (dayIndicesOf names) = .ok [] →
      calculateRecurringDates nowY nowM a =
        specificPhase
          (parseMonthRange nowY nowM a.recurring_month_start a.recurring_month_end)
          a.recurring_specific_days []) := by
  constructor
  · intro ds hw hne
    simp only [calculateRecurringDates, hrec, hnames, hw, Bool.not_true, Bool.false_eq_true,
      if_false]
    cases hsd : a.recurring_specific_days with
    | none => simp [specificPhase]
    | some sd =>
      have hcond : ¬(sd.length > 0 ∧ ds.length = 0) := by
        rintro ⟨-, h0⟩
        exact hne (List.length_eq_zero.mp h0)
      simp only [specificPhase]
      rw [if_neg hcond]
  · intro hw
    simp only [calculateRecurringDates, hrec, hnames, hw, Bool.not_true, Bool.false_eq_true,
      if_false]

/-- C7 witness: with both `viernes` and specific days 1-2 present, only the
Fridays of February 2026 are produced. -/
theorem weekday_precedence_witness :
    calculateRecurringDates 2026 0
      { is_recurring := true, recurring_days_of_week := .arr [.str "viernes"],
        recurring_specific_days := some [1, 2],
        recurring_month_start := some "2026-02", recurring_month_end := some "2026-02" } =
      .ok ["2026-02-06", "2026-02-13", "2026-02-20", "2026-02-27"] :=
  (weekday_precedence 2026 0
    { is_recurring := true, recurring_days_of_week := .arr [.str "viernes"],
      recurring_specific_days := some [1, 2],
      recurring_month_start := some "2026-02", recurring_month_end := some "2026-02" }
    ["viernes"] rfl rfl).1 _ (by decide) (by decide)

/-! ## C8 -/

/-- C8: the weekday vocabulary is exactly the nine table entries — the seven
canonical Spanish names indexed Sunday 0 through Saturday 6 plus the
accent-free aliases of miércoles and sábado mapping to the same index;
matching happens on the lower-cased, trimmed entry (so it is
case-insensitive after trimming), and any name outside the vocabulary is
dropped silently by the index filter. -/
theorem weekday_vocabulary :
    (dayNameToIndex "domingo" = some 0 ∧ dayNameToIndex "lunes" = some 1 ∧
     dayNameToIndex "martes" = some 2 ∧ dayNameToIndex "miércoles" = some 3 ∧
     dayNameToIndex "miercoles" = some 3 ∧ dayNameToIndex "jueves" = some 4 ∧
     dayNameToIndex "viernes" = some 5 ∧ dayNameToIndex "sábado" = some 6 ∧
     dayNameToIndex "sabado" = some 6) ∧
    (∀ s k, dayNameToIndex s = some k → (s, k) ∈ DAY_NAME_TO_INDEX) ∧
    (∀ s, coerceDayName (.str s) = .ok (jsTrim (jsToLowerCase s))) ∧
    (∀ s names, dayNameToIndex s = none →
      dayIndicesOf (s :: names) = dayIndicesOf names) ∧
    (coerceDayName (.str " VIERNES ") = .ok "viernes" ∧
     coerceDayName (.str "SÁBADO") = .ok "sábado" ∧
     coerceDayName (.str "MiÉrcoles") = .ok "miércoles") := by
  refine ⟨by decide, ?_, fun s => rfl, ?_, ⟨rfl, rfl, rfl⟩⟩
  · intro s k h
    unfold dayNameToIndex at h
    obtain ⟨p, hfind, hk⟩ := Option.map_eq_some'.mp h
    have hmem := List.mem_of_find?_eq_some hfind
    have hp := List.find?_some hfind
    have hps : p.1 = s := of_decide_eq_true hp
    have : p = (s, k) := Prod.ext hps hk
    exact this ▸ hmem
  · intro s names h
    simp [dayIndicesOf, List.filterMap_cons, h]

/-- C8 witness: the vocabulary facts applied at a known name and an unknown
one. -/
theorem weekday_vocabulary_witness :
    ("viernes", 5) ∈ DAY_NAME_TO_INDEX ∧
      dayIndicesOf ["notaday", "sábado"] = dayIndicesOf ["sábado"] :=
  ⟨weekday_vocabulary.2.1 "viernes" 5 (by decide),
   weekday_vocabulary.2.2.2.1 "notaday" ["sábado"] (by decide)⟩

/-! ## C2: counterexample -/

/-- C2 counterexample: the specific-day recurring expansion neither sorts
nor deduplicates — the input order `[14, 13]` is reproduced, so the output
is not ascending (`"2026-02-13"` is lexicographically smaller yet comes
second). -/
theorem specific_day_unsorted :
    calculateRecurringDates 2026 0
      { is_recurring := true, recurring_specific_days := some [14, 13],
        recurring_month_start := some "2026-02", recurring_month_end := some "2026-02" } =
      .ok ["2026-02-14", "2026-02-13"] ∧
    strLtB "2026-02-13" "2026-02-14" = true := by decide

/-! ## C3: counterexample -/

/-- C5 counterexample: the explicit multi-day (non-recurring) branch does
not check day numbers against the month length — days 13 and 31 anchored to
February 2026 (28 days) produce a `"2026-02-31"` entry instead of skipping
it. -/
theorem explicit_multiday_no_skip :
    computeRecurringDates 2026 0
      { is_recurring := false, recurring_specific_days := some [13, 31],
        date := some "2026-02-13" } =
      .ok ["2026-02-13", "2026-02-31"] ∧
    daysInMonth 2026 2 = 28 := by decide

/-! ## C6: counterexample -/

/-- C6 counterexample: a malformed (but present) primary date does not
degrade to an empty expanded set — the explicit multi-day branch happily
interpolates the failed parse into garbage date strings. -/
theorem malformed_primary_date_not_empty :
    computeRecurringDates 2026 0
      { is_recurring := false, recurring_specific_days := some [13, 14],
        date := some "garbage" } =
      .ok ["NaN-undefined-13", "NaN-undefined-14"] := by decide

/-! ## C3: amended totality -/

/-- The full pipeline really hangs on the huge parseable range flagged in
the amendment: `Number` parses `10^16` and `10^16 + 2` exactly, the loop
is entered, and the binary64 `year++` can no longer advance (the unit in
the last place at `10^16` is 2), so the guard holds forever. -/
theorem calculateRecurringDatesD_stall_hang :
    calculateRecurringDatesD 2026 0
      { is_recurring := true, recurring_days_of_week := .str "viernes",
        recurring_month_start := some "10000000000000000-01",
        recurring_month_end := some "10000000000000002-01" } = .diverges := by
  have hr : parseMonthRangeD 2026 0 (some "10000000000000000-01")
      (some "10000000000000002-01") =
      ⟨.fin 10000000000000000, .fin 0, .fin 10000000000000002, .fin 0⟩ := by decide
  have hnames : dayNamesOf
      { is_recurring := true, recurring_days_of_week := .str "viernes",
        recurring_month_start := some "10000000000000000-01",
        recurring_month_end := some "10000000000000002-01" } = .ok ["viernes"] := rfl
  have hdi : dayIndicesOf ["viernes"] = [5] := by decide
  have hloop : monthLoopD (weekdayMonthBodyD [5]) (.fin 10000000000000000) (.fin 0)
      (.fin 10000000000000002) (.fin 0) = .diverges := by
    unfold monthLoopD
    exact monthLoopDFuel_stall_diverges _ _ _ _
  have hphase : weekdayPhaseD
      ⟨.fin 10000000000000000, .fin 0, .fin 10000000000000002, .fin 0⟩ [5] =
      .diverges := by
    unfold weekdayPhaseD
    rw [if_pos (by decide), hloop]
  simp only [calculateRecurringDatesD, hnames, hr, hdi, hphase, Bool.not_true,
    Bool.false_eq_true, if_false]

/-! ## C5: amended day-skip -/

/-- C5 (amended): in the *recurring* specific-day expansion a month's output
contains exactly the formatted dates of the requested day numbers that fit
in that month — a nonexistent day is silently skipped, no substitute date is
emitted, and no error is raised; concretely, requesting day 31 over April
2026 yields nothing (and together with day 30 yields only `"2026-04-30"`).
(As stated the claim is false for the explicit multi-day branch, which
performs no days-in-month check at all — see the counterexample, which
emits `"2026-02-31"`.) -/
theorem day_skip_recurring_amended :
    (∀ (sd : List Int) (y m : Int) (s : String),
      s ∈ specificMonthBody sd y m ↔
        ∃ day ∈ sd, 1 ≤ day ∧
          day ≤ (daysInMonth (normYM y m).1 ((normYM y m).2 + 1) : Int) ∧
          s = fmtDate y (m + 1) day) ∧
    (calculateRecurringDates 2026 3
      { is_recurring := true, recurring_specific_days := some [31],
        recurring_month_start := some "2026-04", recurring_month_end := some "2026-04" } =
      .ok []) ∧
    (calculateRecurringDates 2026 3
      { is_recurring := true, recurring_specific_days := some [31, 30],
        recurring_month_start := some "2026-04", recurring_month_end := some "2026-04" } =
      .ok ["2026-04-30"]) :=
  ⟨fun _ _ _ _ => mem_specificMonthBody, by decide, by decide⟩

/-- C5 witness: the characterization applied at April 2026 with days
`[31, 30]` puts `"2026-04-30"` in the month body. -/
theorem day_skip_recurring_amended_witness :
    "2026-04-30" ∈ specificMonthBody [31, 30] 2026 3 :=
  ((day_skip_recurring_amended.1 [31, 30] 2026 3 "2026-04-30").mpr
    ⟨30, by decide, by decide, by decide, by decide⟩)

/-! ## C6: amended classification boundary -/

/-- C6 (amended): a non-recurring guess with `specificDays = [13, 14]` and
primary date `"2026-02-13"` expands to exactly
`["2026-02-13", "2026-02-14"]`, anchored to the primary date's month; the
same days with `isRecurring = true` and no weekday names expand across every
month of the 2026-02..2026-04 range; and with fewer than two specific days,
or an *absent* primary date (`null`, empty, or the `'No especificado'`
sentinel), the expanded set is empty.  (As stated the claim is false for a
malformed-but-present primary date, which yields garbage date strings
rather than an empty set — see the counterexample.) -/
theorem explicit_classification_amended :
    (computeRecurringDates 2026 0
      { is_recurring := false, recurring_specific_days := some [13, 14],
        date := some "2026-02-13" } = .ok ["2026-02-13", "2026-02-14"]) ∧
    (calculateRecurringDates 2026 0
      { is_recurring := true, recurring_specific_days := some [13, 14],
        recurring_month_start := some "2026-02", recurring_month_end := some "2026-04",
        date := some "2026-02-13" } =
      .ok ["2026-02-13", "2026-02-14", "2026-03-13", "2026-03-14",
           "2026-04-13", "2026-04-14"]) ∧
    (∀ (nowY nowM : Int) (a : Analysis), a.is_recurring = false →
      ((∃ l, a.recurring_specific_days = some l ∧ l.length ≤ 1) ∨
        a.recurring_specific_days = none ∨
        a.date = none ∨ a.date = some "" ∨ a.date = some "No especificado") →
      computeRecurringDates nowY nowM a = .ok []) := by
  refine ⟨by decide, by decide, ?_⟩
  intro nowY nowM a hrec hcase
  unfold computeRecurringDates
  rw [hrec]
  simp only [Bool.false_eq_true, if_false]
  rcases hcase with ⟨l, h, hlen⟩ | h | h | h | h
  · rw [h]
    have h1 : ¬ l.length > 1 := by omega
    simp [h1]
  · rw [h]
  all_goals
    cases hsd : a.recurring_specific_days with
    | none => rfl
    | some l =>
      by_cases hlen : l.length > 1
      · simp [hlen, h]
      · simp [hlen]

/-- C6 witness: a two-day non-recurring guess with an absent primary date
degrades to an empty expanded set. -/
theorem explicit_classification_amended_witness :
    computeRecurringDates 2026 5
      { is_recurring := false, recurring_specific_days := some [13, 14] } = .ok [] :=
  explicit_classification_amended.2.2 2026 5
    { is_recurring := false, recurring_specific_days := some [13, 14] } rfl
    (Or.inr (Or.inr (Or.inl rfl)))

/-! ## C4: weekday fidelity -/

theorem daysInMonth_le (y : Int) (m : Nat) : daysInMonth y m ≤ 31 := by
  unfold daysInMonth
  split_ifs <;> omega

theorem daysInMonth_pos (y : Int) (m : Nat) : 1 ≤ daysInMonth y m := by
  unfold daysInMonth
  split_ifs <;> omega

theorem weekdayPhase_eq (sy sm ey em : Int) (di : List Nat) (hdi : di ≠ []) :
    weekdayPhase ⟨some sy, some sm, some ey, some em⟩ di =
      .ok (jsSortStrings (monthLoopInt (weekdayMonthBody di) sy sm (some ey) (some em))) := by
  unfold weekdayPhase
  rw [if_pos (by
    cases di with
    | nil => exact absurd rfl hdi
    | cons h t => simp)]
  rfl

/-- C4: for a weekday pattern with at least one recognized weekday and a
well-formed month range, a calendar date is in the weekday expansion result
exactly when its month lies between the start and end bound (inclusive, with
correct month/year rollover via the linear month index) and its day exists
in that month and falls on one of the pattern's weekdays; in particular
`viernes` over February 2026 produces exactly the four Fridays
06, 13, 20, 27 (leap-year month lengths come from `daysInMonth`). -/
theorem weekday_fidelity (di : List Nat) (ds : List String) (sy sm ey em : Int)
    (hdi : di ≠ []) (hsy : 0 ≤ sy) (hsm : 0 ≤ sm) (hsm' : sm ≤ 11)
    (hem : 0 ≤ em) (hem' : em ≤ 11)
    (hds : weekdayPhase ⟨some sy, some sm, some ey, some em⟩ di = .ok ds) :
    (∀ (y mo : Int) (d : Nat), 0 ≤ y → 1 ≤ mo → mo ≤ 12 → 1 ≤ d → d ≤ 31 →
      (fmtDate y mo (d : Int) ∈ ds ↔
        sy * 12 + sm ≤ y * 12 + (mo - 1) ∧ y * 12 + (mo - 1) ≤ ey * 12 + em ∧
        d ≤ daysInMonth y mo.toNat ∧ jsGetDay y mo.toNat d ∈ di)) ∧
    (calculateRecurringDates 2026 0
      { is_recurring := true, recurring_days_of_week := .arr [.str "viernes"],
        recurring_month_start := some "2026-02", recurring_month_end := some "2026-02" } =
      .ok ["2026-02-06", "2026-02-13", "2026-02-20", "2026-02-27"]) := by
  refine ⟨?_, by decide⟩
  rw [weekdayPhase_eq sy sm ey em di hdi] at hds
  have hds' : ds = jsSortStrings (monthLoopInt (weekdayMonthBody di) sy sm
      (some ey) (some em)) := by
    cases hds
    rfl
  subst hds'
  intro y mo d hy hmo1 hmo2 hd1 hd2
  rw [(jsSortStrings_perm _).mem_iff]
  rw [mem_monthLoopInt hsm hsm' hem hem']
  constructor
  · rintro ⟨y', m', hm0, hm11, hge, hle, hbody⟩
    rw [mem_weekdayMonthBody hm0 hm11] at hbody
    obtain ⟨d', hd'1, hd'2, hday, heq⟩ := hbody
    have hdim : daysInMonth y' (m'.toNat + 1) ≤ 31 := daysInMonth_le _ _
    have hy' : 0 ≤ y' := by omega
    obtain ⟨hyy, hmm, hdd⟩ := fmtDate_inj hy hy' (by omega) (by omega) (by omega)
      (by omega) (by omega) (by omega) (by omega) (by omega) heq
    have hde : d = d' := by omega
    have hmt : mo.toNat = m'.toNat + 1 := by omega
    subst hyy hde
    refine ⟨by omega, by omega, ?_, ?_⟩
    · rw [hmt]
      exact hd'2
    · rw [hmt]
      exact hday
  · rintro ⟨h1, h2, h3, h4⟩
    have hmt : (mo - 1).toNat + 1 = mo.toNat := by omega
    refine ⟨y, mo - 1, by omega, by omega, by omega, by omega, ?_⟩
    rw [mem_weekdayMonthBody (by omega) (by omega)]
    refine ⟨d, by omega, ?_, ?_, ?_⟩
    · rw [hmt]
      exact h3
    · rw [hmt]
      exact h4
    · rw [show mo - 1 + 1 = mo by ring]

/-- C4 witness: the theorem applied to `viernes` over February 2026 puts
February 6 in the result. -/
theorem weekday_fidelity_witness :
    fmtDate 2026 2 ((6 : Nat) : Int) ∈
      ["2026-02-06", "2026-02-13", "2026-02-20", "2026-02-27"] :=
  ((weekday_fidelity [5] ["2026-02-06", "2026-02-13", "2026-02-20", "2026-02-27"]
      2026 1 2026 1 (by decide) (by decide) (by decide) (by decide) (by decide)
      (by decide) (by decide)).1 2026 2 6 (by decide) (by decide) (by decide)
      (by decide) (by decide)).mpr ⟨by decide, by decide, by decide, by decide⟩

/-! ## Lexicographic facts about decimal strings (for the ordering claim) -/

theorem foldl_digits_acc (l : List Char) :
    ∀ a : Nat,
      l.foldl (fun a c => a * 10 + (c.toNat - 48)) a =
        a * 10 ^ l.length + l.foldl (fun a c => a * 10 + (c.toNat - 48)) 0 := by
  induction l with
  | nil => intro a; simp
  | cons c l ih =>
    intro a
    simp only [List.foldl_cons, List.length_cons]
    rw [ih (a * 10 + (c.toNat - 48)), ih (0 * 10 + (c.toNat - 48))]
    simp only [Nat.zero_mul, Nat.zero_add]
    ring

theorem parseDigits_cons (c : Char) (l : List Char) :
    parseDigits (c :: l) = (c.toNat - 48) * 10 ^ l.length + parseDigits l := by
  show l.foldl _ (0 * 10 + (c.toNat - 48)) = _
  rw [foldl_digits_acc]
  simp only [Nat.zero_mul, Nat.zero_add]
  rfl

theorem isDigit_bounds {c : Char} (h : c.isDigit = true) :
    48 ≤ c.toNat ∧ c.toNat ≤ 57 := by
  simp [Char.isDigit, Char.le_def, UInt32.le_def, BitVec.le_def, Char.toNat,
    UInt32.toNat] at h
  exact h

theorem parseDigits_lt_pow (l : List Char) (h : ∀ c ∈ l, c.isDigit = true) :
    parseDigits l < 10 ^ l.length := by
  induction l with
  | nil => simp [parseDigits]
  | cons c l ih =>
    rw [parseDigits_cons]
    have hc := isDigit_bounds (h c (List.mem_cons_self _ _))
    have hP := ih (fun x hx => h x (List.mem_cons_of_mem _ hx))
    have h1 : (c.toNat - 48) * 10 ^ l.length ≤ 9 * 10 ^ l.length :=
      Nat.mul_le_mul_right _ (by omega)
    have h2 : (10 : Nat) ^ (c :: l).length = 10 * 10 ^ l.length := by
      rw [List.length_cons, pow_succ]
      ring
    omega

theorem lexLtB_of_digits_lt :
    ∀ (u v : List Char), u.length = v.length →
      (∀ c ∈ u, c.isDigit = true) → (∀ c ∈ v, c.isDigit = true) →
      parseDigits u < parseDigits v → lexLtB u v = true := by
  intro u
  induction u with
  | nil =>
    intro v hlen _ _ hp
    cases v with
    | nil => simp [parseDigits] at hp
    | cons b bs => simp at hlen
  | cons a as ih =>
    intro v hlen hu hv hp
    cases v with
    | nil => simp at hlen
    | cons b bs =>
      simp only [List.length_cons, Nat.add_right_cancel_iff] at hlen
      rw [parseDigits_cons, parseDigits_cons] at hp
      rcases Nat.lt_trichotomy a.toNat b.toNat with hab | hab | hab
      · simp [lexLtB, charLtB, hab]
      · have h1 : charLtB a b = false := by
          simp only [charLtB, decide_eq_false_iff_not]
          omega
        have h2 : charLtB b a = false := by
          simp only [charLtB, decide_eq_false_iff_not]
          omega
        have hcancel : parseDigits as < parseDigits bs := by
          rw [hlen, hab] at hp
          omega
        simp only [lexLtB, h1, h2, Bool.false_eq_true, if_false]
        exact ih bs hlen (fun c hc => hu c (List.mem_cons_of_mem _ hc))
          (fun c hc => hv c (List.mem_cons_of_mem _ hc)) hcancel
      · exfalso
        have hPb : parseDigits bs < 10 ^ bs.length :=
          parseDigits_lt_pow bs (fun c hc => hv c (List.mem_cons_of_mem _ hc))
        have hbb := isDigit_bounds (hv b (List.mem_cons_self _ _))
        have haa := isDigit_bounds (hu a (List.mem_cons_self _ _))
        have hstep : (b.toNat - 48 + 1) * 10 ^ bs.length ≤
            (a.toNat - 48) * 10 ^ as.length := by
          rw [hlen]
          exact Nat.mul_le_mul_right _ (by omega)
        have hexp : (b.toNat - 48 + 1) * 10 ^ bs.length =
            (b.toNat - 48) * 10 ^ bs.length + 10 ^ bs.length := by ring
        omega

theorem lexLtB_append_same : ∀ (p u v : List Char), lexLtB (p ++ u) (p ++ v) = lexLtB u v := by
  intro p
  induction p with
  | nil => intro u v; rfl
  | cons c p ih =>
    intro u v
    have hcc : charLtB c c = false := by
      simp only [charLtB, decide_eq_false_iff_not]
      omega
    simp only [List.cons_append, lexLtB, hcc, Bool.false_eq_true, if_false]
    exact ih u v

theorem lexLtB_cons_same (c : Char) (u v : List Char) :
    lexLtB (c :: u) (c :: v) = lexLtB u v := by
  have := lexLtB_append_same [c] u v
  simpa using this

theorem lexLtB_append_of_lt :
    ∀ (u v x y : List Char), u.length = v.length → lexLtB u v = true →
      lexLtB (u ++ x) (v ++ y) = true := by
  intro u
  induction u with
  | nil =>
    intro v x y hlen h
    cases v with
    | nil => simp [lexLtB] at h
    | cons b bs => simp at hlen
  | cons a as ih =>
    intro v x y hlen h
    cases v with
    | nil => simp at hlen
    | cons b bs =>
      simp only [List.length_cons, Nat.add_right_cancel_iff] at hlen
      simp only [List.cons_append]
      simp only [lexLtB] at h ⊢
      by_cases h1 : charLtB a b = true
      · simp [h1]
      · by_cases h2 : charLtB b a = true
        · simp [h1, h2] at h
        · simp only [h1, h2, Bool.false_eq_true, if_false] at h ⊢
          exact ih bs x y hlen h

theorem digitChar_isDigit : ∀ k, k < 10 → (Nat.digitChar k).isDigit = true := by decide

theorem toDigitsCore_digits :
    ∀ (f n : Nat) (acc : List Char), (∀ c ∈ acc, c.isDigit = true) →
      ∀ c ∈ Nat.toDigitsCore 10 f n acc, c.isDigit = true := by
  intro f
  induction f with
  | zero =>
    intro n acc hacc
    simpa [Nat.toDigitsCore] using hacc
  | succ f ih =>
    intro n acc hacc c hc
    simp only [Nat.toDigitsCore] at hc
    by_cases h : n / 10 = 0
    · rw [if_pos h] at hc
      rcases List.mem_cons.mp hc with rfl | hc'
      · exact digitChar_isDigit _ (by omega)
      · exact hacc c hc'
    · rw [if_neg h] at hc
      refine ih (n / 10) _ ?_ c hc
      intro x hx
      rcases List.mem_cons.mp hx with rfl | hx'
      · exact digitChar_isDigit _ (by omega)
      · exact hacc x hx'

theorem repr_digits (n : Nat) : ∀ c ∈ (Nat.repr n).data, c.isDigit = true :=
  toDigitsCore_digits (n + 1) n [] (by simp)

theorem toDigitsCore_fuel :
    ∀ (f g n : Nat), n < f → n < g →
      Nat.toDigitsCore 10 f n [] = Nat.toDigitsCore 10 g n [] := by
  intro f
  induction f with
  | zero => intro g n h; omega
  | succ f ih =>
    intro g n hf hg
    cases g with
    | zero => omega
    | succ g =>
      simp only [Nat.toDigitsCore]
      by_cases h : n / 10 = 0
      · simp [h]
      · rw [if_neg h, if_neg h]
        rw [toDigitsCore_acc f, toDigitsCore_acc g]
        rw [ih g (n / 10) (by omega) (by omega)]

theorem repr_data_step {n : Nat} (h : 10 ≤ n) :
    (Nat.repr n).data = (Nat.repr (n / 10)).data ++ [Nat.digitChar (n % 10)] := by
  have h0 : ¬ n / 10 = 0 := by omega
  show Nat.toDigitsCore 10 (n + 1) n [] = _
  simp only [Nat.toDigitsCore, h0, if_false]
  rw [toDigitsCore_acc]
  have : (Nat.repr (n / 10)).data = Nat.toDigitsCore 10 (n / 10 + 1) (n / 10) [] := rfl
  rw [this, toDigitsCore_fuel n (n / 10 + 1) (n / 10) (by omega) (by omega)]

theorem repr_len_4 {n : Nat} (h1 : 1000 ≤ n) (h2 : n ≤ 9999) :
    (Nat.repr n).data.length = 4 := by
  rw [repr_data_step (by omega), List.length_append,
    repr_data_step (by omega : 10 ≤ n / 10), List.length_append,
    repr_data_step (by omega : 10 ≤ n / 10 / 10), List.length_append,
    repr_data_small (by omega : n / 10 / 10 / 10 < 10)]
  simp

theorem padStart2_repr_digits (n : Nat) :
    ∀ c ∈ (padStart2 (Nat.repr n)).data, c.isDigit = true := by
  rw [padStart2_data]
  intro c hc
  rcases List.mem_append.mp hc with h | h
  · rw [List.eq_of_mem_replicate h]
    decide
  · exact repr_digits n c h

theorem padStart2_lt {a b : Nat} (ha : a < 100) (hb : b < 100) (hab : a < b) :
    lexLtB (padStart2 (Nat.repr a)).data (padStart2 (Nat.repr b)).data = true := by
  apply lexLtB_of_digits_lt
  · rw [padStart2_repr_length ha, padStart2_repr_length hb]
  · exact padStart2_repr_digits a
  · exact padStart2_repr_digits b
  · rw [parseDigits_padStart2_repr, parseDigits_padStart2_repr]
    exact hab

theorem repr_lt_lex {a b : Nat} (ha : 1000 ≤ a) (ha' : a ≤ 9999) (hb : 1000 ≤ b)
    (hb' : b ≤ 9999) (hab : a < b) :
    lexLtB (Nat.repr a).data (Nat.repr b).data = true := by
  apply lexLtB_of_digits_lt
  · rw [repr_len_4 ha ha', repr_len_4 hb hb']
  · exact repr_digits a
  · exact repr_digits b
  · rw [parseDigits_repr, parseDigits_repr]
    exact hab

theorem fmtDate_inj_day {y m d d' : Int} (hd : 0 ≤ d) (hd' : 0 ≤ d')
    (h : fmtDate y m d = fmtDate y m d') : d = d' := by
  obtain ⟨c, rfl⟩ := Int.eq_ofNat_of_zero_le hd
  obtain ⟨c', rfl⟩ := Int.eq_ofNat_of_zero_le hd'
  have hdata := congrArg String.data h
  rw [fmtDate_data, fmtDate_data] at hdata
  have h1 := List.append_cancel_left hdata
  have h2 := List.append_cancel_left (List.cons.inj h1).2
  have h3 := (List.cons.inj h2).2
  rw [Int_toString_ofNat, Int_toString_ofNat] at h3
  exact congrArg (fun k : Nat => (k : Int)) (padStart2_repr_inj h3)

theorem weekdayMonthBody_nodup (di : List Nat) (y m : Int) (hm : 0 ≤ m) (hm' : m ≤ 11) :
    (weekdayMonthBody di y m).Nodup := by
  have hn := normYM_eq (y := y) hm hm'
  simp only [weekdayMonthBody, hn]
  apply List.Nodup.filterMap _ (List.nodup_range _)
  intro a a' b hb hb'
  by_cases hc : di.contains (jsGetDay y (m.toNat + 1) (a + 1)) = true
  · rw [if_pos hc, Option.mem_def, Option.some.injEq] at hb
    by_cases hc' : di.contains (jsGetDay y (m.toNat + 1) (a' + 1)) = true
    · rw [if_pos hc', Option.mem_def, Option.some.injEq] at hb'
      have heq : fmtDate y ((m.toNat : Int) + 1) ((a : Int) + 1) =
          fmtDate y ((m.toNat : Int) + 1) ((a' : Int) + 1) := by rw [hb, hb']
      have := fmtDate_inj_day (by omega) (by omega) heq
      omega
    · rw [if_neg hc', Option.mem_def] at hb'
      cases hb'
  · rw [if_neg hc, Option.mem_def] at hb
    cases hb

theorem weekday_loop_nodup (di : List Nat) (sy sm ey em : Int) (hsy : 0 ≤ sy)
    (hsm : 0 ≤ sm) (hsm' : sm ≤ 11) (hem : 0 ≤ em) (hem' : em ≤ 11) :
    (monthLoopInt (weekdayMonthBody di) sy sm (some ey) (some em)).Nodup := by
  rw [monthLoopInt_formula (weekdayMonthBody di)
    ((ey * 12 + em + 1 - (sy * 12 + sm)).toNat) sy sm ey em hsm hsm' hem hem' rfl]
  rw [List.nodup_flatten]
  constructor
  · intro l hl
    rw [List.mem_map] at hl
    obtain ⟨i, hi, rfl⟩ := hl
    exact weekdayMonthBody_nodup di _ _ (by omega) (by omega)
  · rw [List.pairwise_map]
    refine (List.pairwise_lt_range _).imp ?_
    intro i j hij s hsi hsj
    rw [mem_weekdayMonthBody (by omega) (by omega)] at hsi hsj
    obtain ⟨d₁, hd₁, hdim₁, hday₁, heq₁⟩ := hsi
    obtain ⟨d₂, hd₂, hdim₂, hday₂, heq₂⟩ := hsj
    have hdim₁' : daysInMonth ((sy * 12 + sm + (i : Int)) / 12)
        (((sy * 12 + sm + (i : Int)) % 12).toNat + 1) ≤ 31 := daysInMonth_le _ _
    have hdim₂' : daysInMonth ((sy * 12 + sm + (j : Int)) / 12)
        (((sy * 12 + sm + (j : Int)) % 12).toNat + 1) ≤ 31 := daysInMonth_le _ _
    have heq := heq₁.symm.trans heq₂
    obtain ⟨hy, hm, -⟩ := fmtDate_inj (by omega) (by omega) (by omega) (by omega)
      (by omega) (by omega) (by omega) (by omega) (by omega) (by omega) heq
    omega

theorem fmtDate_lt {y y' m m' d d' : Int}
    (hy1 : 1000 ≤ y) (hy2 : y ≤ 9999) (hy1' : 1000 ≤ y') (hy2' : y' ≤ 9999)
    (hm1 : 1 ≤ m) (hm2 : m ≤ 12) (hm1' : 1 ≤ m') (hm2' : m' ≤ 12)
    (hd1 : 1 ≤ d) (hd2 : d ≤ 31) (hd1' : 1 ≤ d') (hd2' : d' ≤ 31)
    (horder : y < y' ∨ (y = y' ∧ m < m') ∨ (y = y' ∧ m = m' ∧ d < d')) :
    strLtB (fmtDate y m d) (fmtDate y' m' d') = true := by
  obtain ⟨ny, rfl⟩ := Int.eq_ofNat_of_zero_le (by omega : (0 : Int) ≤ y)
  obtain ⟨ny', rfl⟩ := Int.eq_ofNat_of_zero_le (by omega : (0 : Int) ≤ y')
  obtain ⟨nm, rfl⟩ := Int.eq_ofNat_of_zero_le (by omega : (0 : Int) ≤ m)
  obtain ⟨nm', rfl⟩ := Int.eq_ofNat_of_zero_le (by omega : (0 : Int) ≤ m')
  obtain ⟨nd, rfl⟩ := Int.eq_ofNat_of_zero_le (by omega : (0 : Int) ≤ d)
  obtain ⟨nd', rfl⟩ := Int.eq_ofNat_of_zero_le (by omega : (0 : Int) ≤ d')
  show lexLtB _ _ = true
  rw [fmtDate_data, fmtDate_data, Int_toString_ofNat, Int_toString_ofNat,
    Int_toString_ofNat, Int_toString_ofNat, Int_toString_ofNat, Int_toString_ofNat]
  rcases horder with hlt | ⟨heq, hlt⟩ | ⟨heq, heq2, hlt⟩
  · exact lexLtB_append_of_lt _ _ _ _
      (by rw [repr_len_4 (by exact_mod_cast hy1) (by exact_mod_cast hy2),
        repr_len_4 (by exact_mod_cast hy1') (by exact_mod_cast hy2')])
      (repr_lt_lex (by exact_mod_cast hy1) (by exact_mod_cast hy2)
        (by exact_mod_cast hy1') (by exact_mod_cast hy2') (by exact_mod_cast hlt))
  · have hyy : ny = ny' := by exact_mod_cast heq
    subst hyy
    rw [lexLtB_append_same, lexLtB_cons_same]
    exact lexLtB_append_of_lt _ _ _ _
      (by rw [padStart2_repr_length (by omega : nm < 100),
        padStart2_repr_length (by
          have : nm' ≤ 12 := by exact_mod_cast hm2'
          omega)])
      (padStart2_lt (by
          have : nm ≤ 12 := by exact_mod_cast hm2
          omega)
        (by
          have : nm' ≤ 12 := by exact_mod_cast hm2'
          omega)
        (by exact_mod_cast hlt))
  · have hyy : ny = ny' := by exact_mod_cast heq
    subst hyy
    have hmm : nm = nm' := by exact_mod_cast heq2
    subst hmm
    rw [lexLtB_append_same, lexLtB_cons_same, lexLtB_append_same, lexLtB_cons_same]
    exact padStart2_lt (by
        have : nd ≤ 31 := by exact_mod_cast hd2
        omega)
      (by
        have : nd' ≤ 31 := by exact_mod_cast hd2'
        omega)
      (by exact_mod_cast hlt)

theorem specificMonthBody_sorted (sd : List Int) (y m : Int)
    (hsd : List.Pairwise (· < ·) sd) (hy1 : 1000 ≤ y) (hy2 : y ≤ 9999)
    (hm : 0 ≤ m) (hm' : m ≤ 11) :
    List.Pairwise (fun a b => strLtB a b = true) (specificMonthBody sd y m) := by
  simp only [specificMonthBody]
  rw [List.pairwise_filterMap]
  refine hsd.imp ?_
  intro a b hab c hc c' hc'
  have hdim : daysInMonth (normYM y m).1 ((normYM y m).2 + 1) ≤ 31 :=
    daysInMonth_le _ _
  by_cases h1 : 1 ≤ a ∧ a ≤ (daysInMonth (normYM y m).1 ((normYM y m).2 + 1) : Int)
  · rw [if_pos h1, Option.mem_def, Option.some.injEq] at hc
    by_cases h2 : 1 ≤ b ∧ b ≤ (daysInMonth (normYM y m).1 ((normYM y m).2 + 1) : Int)
    · rw [if_pos h2, Option.mem_def, Option.some.injEq] at hc'
      subst hc hc'
      exact fmtDate_lt hy1 hy2 hy1 hy2 (by omega) (by omega) (by omega) (by omega)
        (by omega) (by omega) (by omega) (by omega) (Or.inr (Or.inr ⟨rfl, rfl, hab⟩))
    · rw [if_neg h2, Option.mem_def] at hc'
      cases hc'
  · rw [if_neg h1, Option.mem_def] at hc
    cases hc

theorem specific_loop_sorted (sd : List Int) (sy sm ey em : Int)
    (hsd : List.Pairwise (· < ·) sd) (hsy4 : 1000 ≤ sy) (hey4 : ey ≤ 9999)
    (hsm : 0 ≤ sm) (hsm' : sm ≤ 11) (hem : 0 ≤ em) (hem' : em ≤ 11) :
    List.Pairwise (fun a b => strLtB a b = true)
      (monthLoopInt (specificMonthBody sd) sy sm (some ey) (some em)) := by
  rw [monthLoopInt_formula (specificMonthBody sd)
    ((ey * 12 + em + 1 - (sy * 12 + sm)).toNat) sy sm ey em hsm hsm' hem hem' rfl]
  rw [List.pairwise_flatten]
  constructor
  · intro l hl
    rw [List.mem_map] at hl
    obtain ⟨i, hi, rfl⟩ := hl
    rw [List.mem_range] at hi
    exact specificMonthBody_sorted sd _ _ hsd (by omega) (by omega) (by omega) (by omega)
  · rw [List.pairwise_map]
    refine List.Pairwise.imp_of_mem ?_ (List.pairwise_lt_range _)
    intro i j hi hj hij s hsi t hst
    rw [List.mem_range] at hi hj
    rw [mem_specificMonthBody] at hsi hst
    obtain ⟨d₁, hd₁m, hd₁1, hd₁2, rfl⟩ := hsi
    obtain ⟨d₂, hd₂m, hd₂1, hd₂2, rfl⟩ := hst
    have hdim₁ : daysInMonth (normYM ((sy * 12 + sm + (i : Int)) / 12)
        ((sy * 12 + sm + (i : Int)) % 12)).1
        ((normYM ((sy * 12 + sm + (i : Int)) / 12)
          ((sy * 12 + sm + (i : Int)) % 12)).2 + 1) ≤ 31 := daysInMonth_le _ _
    have hdim₂ : daysInMonth (normYM ((sy * 12 + sm + (j : Int)) / 12)
        ((sy * 12 + sm + (j : Int)) % 12)).1
        ((normYM ((sy * 12 + sm + (j : Int)) / 12)
          ((sy * 12 + sm + (j : Int)) % 12)).2 + 1) ≤ 31 := daysInMonth_le _ _
    apply fmtDate_lt (by omega) (by omega) (by omega) (by omega) (by omega) (by omega)
      (by omega) (by omega) (by omega) (by omega) (by omega) (by omega)
    omega

/-- C2 (amended): over a well-formed month range, every result of the
weekday-based expansion (which ends in `dates.sort()`) is strictly
ascending with no duplicates; the specific-day expansion performs no sort
and no deduplication — its output is strictly ascending provided the
requested day list itself is strictly ascending (shown here for four-digit
years, where lexicographic and chronological order agree).  (As stated the
claim is false: the specific-day branch reproduces the input order of
`specificDays`, including duplicates — see the counterexample.) -/
theorem expansion_ordering_amended :
    (∀ (di : List Nat) (ds : List String) (sy sm ey em : Int),
      0 ≤ sy → 0 ≤ sm → sm ≤ 11 → 0 ≤ em → em ≤ 11 →
      weekdayPhase ⟨some sy, some sm, some ey, some em⟩ di = .ok ds →
      List.Pairwise (fun x y => strLtB x y = true) ds) ∧
    (∀ (sd : List Int) (ds : List String) (sy sm ey em : Int),
      List.Pairwise (· < ·) sd → 1000 ≤ sy → ey ≤ 9999 →
      0 ≤ sm → sm ≤ 11 → 0 ≤ em → em ≤ 11 →
      specificPhase ⟨some sy, some sm, some ey, some em⟩ (some sd) [] = .ok ds →
      List.Pairwise (fun x y => strLtB x y = true) ds) := by
  constructor
  · intro di ds sy sm ey em hsy hsm hsm' hem hem' hds
    cases di with
    | nil =>
      have hds' : ds = [] := by
        simp only [weekdayPhase, List.length_nil, gt_iff_lt, Nat.lt_irrefl,
          if_false] at hds
        cases hds
        rfl
      subst hds'
      exact List.Pairwise.nil
    | cons h t =>
      rw [weekdayPhase_eq sy sm ey em (h :: t) (by simp)] at hds
      have hds' : ds = jsSortStrings
          (monthLoopInt (weekdayMonthBody (h :: t)) sy sm (some ey) (some em)) := by
        cases hds
        rfl
      subst hds'
      exact sorted_strict_of_nodup (jsSortStrings_sorted _)
        ((jsSortStrings_perm _).nodup_iff.mpr
          (weekday_loop_nodup (h :: t) sy sm ey em hsy hsm hsm' hem hem'))
  · intro sd ds sy sm ey em hsd hsy4 hey4 hsm hsm' hem hem' hds
    simp only [specificPhase] at hds
    by_cases hc : sd.length > 0 ∧ ([] : List String).length = 0
    · rw [if_pos hc] at hds
      have hjs : monthLoopJs (specificMonthBody sd)
          ⟨some sy, some sm, some ey, some em⟩ =
          .ok (monthLoopInt (specificMonthBody sd) sy sm (some ey) (some em)) := rfl
      rw [hjs] at hds
      have hds' : ds =
          monthLoopInt (specificMonthBody sd) sy sm (some ey) (some em) := by
        cases hds
        rfl
      subst hds'
      exact specific_loop_sorted sd sy sm ey em hsd hsy4 hey4 hsm hsm' hem hem'
    · rw [if_neg hc] at hds
      have hds' : ds = [] := by
        cases hds
        rfl
      subst hds'
      exact List.Pairwise.nil

/-- C2 witness: the Friday expansion for February 2026 is strictly
ascending. -/
theorem expansion_ordering_amended_witness :
    List.Pairwise (fun x y => strLtB x y = true)
      ["2026-02-06", "2026-02-13", "2026-02-20", "2026-02-27"] :=
  expansion_ordering_amended.1 [5]
    ["2026-02-06", "2026-02-13", "2026-02-20", "2026-02-27"] 2026 1 2026 1
    (by decide) (by decide) (by decide) (by decide) (by decide) (by decide)
